import Mathlib

/-! ibp-ng: torsion-angle feasibility pruning, the vector kernel and the DMDGP writer.

A shallow embedding of `enum-prune-taf.c`, `vector.c`, `value.h` and `dmdgp.c`.

* C `double`s are embedded as `Dbl K`: exact arithmetic over an ordered field `K`,
  extended by one non-number (NaN) that division by zero produces, that every
  operation propagates and that makes every comparison false.  Rounding, overflow
  to infinity and signed zeros are not represented.
* C `unsigned int`s are natural numbers below `2^32`; subtraction and increment
  wrap explicitly (`usub`, `uadd`, `umul`).
* Arrays are lists read with `List.getD`; a read outside the array is undefined in C
  and the theorems that depend on a read assume it is in range.
* The `FILE*` stream is the list of pieces written to it, one per `fprintf`
  argument group.
-/

namespace IbpNg

/-! ## Machine arithmetic -/

/-- Number of values of a C `unsigned int`. -/
def u32 : Nat := 4294967296

/-- Unsigned subtraction `a - b`, wrapping modulo `2^32`. -/
def usub (a b : Nat) : Nat := (a + u32 - b % u32) % u32

/-- Unsigned addition `a + b`, wrapping modulo `2^32`. -/
def uadd (a b : Nat) : Nat := (a + b) % u32

/-- Unsigned multiplication `a * b`, wrapping modulo `2^32`. -/
def umul (a b : Nat) : Nat := (a * b) % u32

/-- A C `double` in exact arithmetic: a finite number, or the non-number NaN. -/
inductive Dbl (K : Type) where
  | fin (v : K)
  | nan
deriving DecidableEq, Repr

/-- The two libm functions the pruner calls, on finite arguments. -/
structure Libm (K : Type) where
  sqrt : K → K
  atan2 : K → K → K
  M_PI : K

namespace Dbl

variable {K : Type} [LinearOrderedField K]

/-- Sum of two doubles. -/
def add : Dbl K → Dbl K → Dbl K
  | fin a, fin b => fin (a + b)
  | _, _ => nan

/-- Difference of two doubles. -/
def sub : Dbl K → Dbl K → Dbl K
  | fin a, fin b => fin (a - b)
  | _, _ => nan

/-- Product of two doubles. -/
def mul : Dbl K → Dbl K → Dbl K
  | fin a, fin b => fin (a * b)
  | _, _ => nan

/-- Quotient of two doubles.  `0 / 0` is NaN.  A nonzero numerator over zero is an
infinity in IEEE arithmetic; it is folded into the non-number here, and does not arise
in `vector_normalize` when the square root vanishes only at zero. -/
def div : Dbl K → Dbl K → Dbl K
  | fin a, fin b => if b = 0 then nan else fin (a / b)
  | _, _ => nan

/-- The comparison `a > b`; false as soon as one side is NaN. -/
def gt : Dbl K → Dbl K → Bool
  | fin a, fin b => decide (b < a)
  | _, _ => false

/-- The libm call `sqrt(a)`: NaN for a negative or NaN argument. -/
def sqrt (m : Libm K) : Dbl K → Dbl K
  | fin a => if a < 0 then nan else fin (m.sqrt a)
  | nan => nan

/-- The libm call `atan2(y, x)`. -/
def atan2 (m : Libm K) : Dbl K → Dbl K → Dbl K
  | fin y, fin x => fin (m.atan2 y x)
  | _, _ => nan

instance : Add (Dbl K) := ⟨add⟩
instance : Sub (Dbl K) := ⟨sub⟩
instance : Mul (Dbl K) := ⟨mul⟩
instance : Div (Dbl K) := ⟨div⟩

end Dbl

/-! ## value.h -/

/-- Kinds of value a `value_t` may hold. -/
inductive value_type_t where
  | VALUE_TYPE_UNDEFINED
  | VALUE_TYPE_SCALAR
  | VALUE_TYPE_INTERVAL
deriving DecidableEq, Repr

/-- A scalar or interval value: `l` is the scalar value or the lower bound, `u` the
scalar value or the upper bound. -/
structure value_t (K : Type) where
  type : value_type_t
  l : Dbl K
  u : Dbl K
deriving DecidableEq, Repr

/-- Modelled from the spec: `value_is_scalar` is declared in `value.h` and defined in the
absent `value.c`; classification of the tagged variant by its tag. -/
def value_is_scalar {K : Type} (val : value_t K) : Bool :=
  decide (val.type = value_type_t.VALUE_TYPE_SCALAR)

/-- Modelled from the spec: `value_is_interval` is declared in `value.h` and defined in
the absent `value.c`; classification of the tagged variant by its tag. -/
def value_is_interval {K : Type} (val : value_t K) : Bool :=
  decide (val.type = value_type_t.VALUE_TYPE_INTERVAL)

/-! ## vector.c -/

/-- A three-dimensional vector of doubles. -/
structure vector_t (K : Type) where
  x : Dbl K
  y : Dbl K
  z : Dbl K
deriving DecidableEq, Repr

section Vector

variable {K : Type} [LinearOrderedField K]

/-- `vector_dot`: the dot product `a.x*b.x + a.y*b.y + a.z*b.z`. -/
def vector_dot (a b : vector_t K) : Dbl K :=
  a.x * b.x + a.y * b.y + a.z * b.z

/-- The length computed in the first line of `vector_normalize`. -/
def vector_len (m : Libm K) (a : vector_t K) : Dbl K :=
  Dbl.sqrt m (a.x * a.x + a.y * a.y + a.z * a.z)

/-- `vector_normalize`: divides each component by the length.  The C function returns
`void` and has neither a threshold nor a `raise`/`throw`. -/
def vector_normalize (m : Libm K) (a : vector_t K) : vector_t K :=
  let len := vector_len m a
  { x := a.x / len, y := a.y / len, z := a.z / len }

/-- `vector_cross`: the cross product of `a` and `b`. -/
def vector_cross (a b : vector_t K) : vector_t K :=
  { x := a.y * b.z - a.z * b.y
    y := a.z * b.x - a.x * b.z
    z := a.x * b.y - a.y * b.x }

end Vector

/-! ## Peptide, graph and enumerator data read by the pruner and the writer -/

/-- A torsion or improper: four atom indices and the angle value (in degrees). -/
structure peptide_dihed_t (K : Type) where
  atom_id : Fin 4 → Nat
  ang : value_t K

/-- An atom of the peptide; only the fields read by the code embedded here. -/
structure peptide_atom_t where
  name : String
  type : String
  res_id : Nat
deriving DecidableEq, Repr

/-- The peptide: residues, atoms, torsions, impropers and explicit sidechains.  The
counts `n_res`, `n_atoms`, `n_torsions`, `n_impropers`, `n_sc` are the list lengths. -/
structure peptide_t (K : Type) where
  res : List Nat
  atoms : List peptide_atom_t
  torsions : List (peptide_dihed_t K)
  impropers : List (peptide_dihed_t K)
  sc : List Nat

/-- The graph: vertex count, the `nv * nv` edge table and the order (`n_order` is the
length of `order`). -/
structure graph_t (K : Type) where
  nv : Nat
  E : List (value_t K)
  order : List Nat

/-- Which dihedral array a pointer `peptide_dihed_t *arr` designates. -/
inductive dihed_ref where
  | torsions
  | impropers
deriving DecidableEq, Repr

/-- `enum_prune_taf_t`: payload of a torsion angle feasibility closure. -/
structure enum_prune_taf_t (K : Type) where
  ntest : Nat
  nprune : Nat
  arr : dihed_ref
  n : Fin 4 → Nat
  bound : value_t K

/-- The enumerator: graph, peptide, tolerance and the registered closures, each with
the level it was registered at, in registration order. -/
structure enum_t (K : Type) where
  G : graph_t K
  P : peptide_t K
  ddf_tol : Dbl K
  prune : List (Nat × enum_prune_taf_t K)

/-- One entry of the thread state; only the position is read here. -/
structure enum_thread_node (K : Type) where
  pos : vector_t K

/-- The thread: current level and the state stack indexed by level. -/
structure enum_thread_t (K : Type) where
  level : Nat
  state : List (enum_thread_node K)

/-- Success of the two allocating calls of `taf_init`, per array entry. -/
structure Heap where
  malloc : Nat → Bool
  add_closure : Nat → Bool

/-! ## enum-prune-taf.c -/

section Taf

variable {K : Type} [LinearOrderedField K]

/-- The loop of `taf_level` started at counter `i` with `fuel` iterations left
(`fuel = lev + 1 - i`). -/
def taf_level_loop (order : List Nat) (id : Nat) : Nat → Nat → Nat
  | 0, i => i
  | fuel + 1, i => if order.getD i 0 = id then i else taf_level_loop order id fuel (i + 1)

/-- `taf_level`: the first position `i <= lev` with `order[i] == id`, or `lev + 1`. -/
def taf_level (order : List Nat) (lev id : Nat) : Nat :=
  taf_level_loop order id (lev + 1) 0

/-- Modelled from the spec: `enum_prune_add_closure` is defined in the absent
`enum-prune.c`; it appends the closure to the registry of level `lev` in registration
order and reports failure by returning 0. -/
def enum_prune_add_closure (ok : Bool) (E : enum_t K) (lev : Nat)
    (data : enum_prune_taf_t K) : Option (enum_t K) :=
  if ok then some { E with prune := E.prune ++ [(lev, data)] } else none

/-- The payload `taf_init` builds for the entry `d` at level `lev`: zeroed counters, the
array pointer, the offsets `lev - levs[k]` and the bound scaled to radians. -/
def taf_payload (m : Libm K) (value_scal : value_t K → Dbl K → value_t K)
    (arrp : dihed_ref) (order : List Nat) (lev : Nat) (d : peptide_dihed_t K) :
    enum_prune_taf_t K :=
  { ntest := 0, nprune := 0, arr := arrp
    n := fun k => usub lev (taf_level order lev (d.atom_id k))
    bound := value_scal d.ang (Dbl.fin m.M_PI / Dbl.fin 180) }

/-- The loop of `taf_init` from array index `i` on, over the remaining entries. -/
def taf_init_loop (m : Libm K) (value_scal : value_t K → Dbl K → value_t K) (h : Heap)
    (arrp : dihed_ref) (lev id : Nat) :
    Nat → List (peptide_dihed_t K) → enum_t K → Nat × enum_t K
  | _, [], E => (1, E)
  | i, d :: rest, E =>
    let ids := d.atom_id
    if id ≠ ids 0 ∧ id ≠ ids 1 ∧ id ≠ ids 2 ∧ id ≠ ids 3 then
      taf_init_loop m value_scal h arrp lev id (i + 1) rest E
    else
      let levs : Fin 4 → Nat := fun k => taf_level E.G.order lev (ids k)
      if levs 0 > lev ∨ levs 1 > lev ∨ levs 2 > lev ∨ levs 3 > lev then
        taf_init_loop m value_scal h arrp lev id (i + 1) rest E
      else if h.malloc i = false then (0, E)
      else
        match enum_prune_add_closure (h.add_closure i) E lev
            (taf_payload m value_scal arrp E.G.order lev d) with
        | none => (0, E)
        | some E1 => taf_init_loop m value_scal h arrp lev id (i + 1) rest E1

/-- `taf_init`: registers the closures of the array `arr` at level `lev`. -/
def taf_init (m : Libm K) (value_scal : value_t K → Dbl K → value_t K) (h : Heap)
    (E : enum_t K) (arrp : dihed_ref) (arr : List (peptide_dihed_t K)) (lev : Nat) :
    Nat × enum_t K :=
  taf_init_loop m value_scal h arrp lev (E.G.order.getD lev 0) 0 arr E

/-- `enum_prune_dihe_init`: `taf_init` over the torsions of the peptide. -/
def enum_prune_dihe_init (m : Libm K) (value_scal : value_t K → Dbl K → value_t K) (h : Heap)
    (E : enum_t K) (lev : Nat) : Nat × enum_t K :=
  taf_init m value_scal h E dihed_ref.torsions E.P.torsions lev

/-- `enum_prune_impr_init`: `taf_init` over the impropers of the peptide. -/
def enum_prune_impr_init (m : Libm K) (value_scal : value_t K → Dbl K → value_t K) (h : Heap)
    (E : enum_t K) (lev : Nat) : Nat × enum_t K :=
  taf_init m value_scal h E dihed_ref.impropers E.P.impropers lev

/-- The node read for a position outside the state array (undefined in C). -/
def enum_thread_node.undef : enum_thread_node K :=
  { pos := { x := Dbl.nan, y := Dbl.nan, z := Dbl.nan } }

/-- The index `th->level - taf_data->n[k]` read by `enum_prune_taf`. -/
def taf_state_index (th : enum_thread_t K) (data : enum_prune_taf_t K) (k : Fin 4) : Nat :=
  usub th.level (data.n k)

/-- The dihedral angle `omega` computed by `enum_prune_taf`. -/
def taf_omega (m : Libm K) (th : enum_thread_t K) (data : enum_prune_taf_t K) : Dbl K :=
  let x1 := (th.state.getD (taf_state_index th data 0) enum_thread_node.undef).pos
  let x2 := (th.state.getD (taf_state_index th data 1) enum_thread_node.undef).pos
  let x3 := (th.state.getD (taf_state_index th data 2) enum_thread_node.undef).pos
  let x4 := (th.state.getD (taf_state_index th data 3) enum_thread_node.undef).pos
  let b1 : vector_t K := { x := x1.x - x2.x, y := x1.y - x2.y, z := x1.z - x2.z }
  let b2 : vector_t K := { x := x2.x - x3.x, y := x2.y - x3.y, z := x2.z - x3.z }
  let b3 : vector_t K := { x := x3.x - x4.x, y := x3.y - x4.y, z := x3.z - x4.z }
  let n1 := vector_normalize m (vector_cross b1 b2)
  let n2 := vector_normalize m (vector_cross b2 b3)
  let b2n := vector_normalize m b2
  let mm := vector_cross n1 b2n
  let x := vector_dot n1 n2
  let y := vector_dot mm n2
  Dbl.atan2 m y x

/-- The pair `(x, y)` of `enum_prune_taf`, `x = n1 . n2` and `y = m . n2`, of which
`omega = atan2(y, x)` is taken. -/
def taf_xy (m : Libm K) (th : enum_thread_t K) (data : enum_prune_taf_t K) : Dbl K × Dbl K :=
  let x1 := (th.state.getD (taf_state_index th data 0) enum_thread_node.undef).pos
  let x2 := (th.state.getD (taf_state_index th data 1) enum_thread_node.undef).pos
  let x3 := (th.state.getD (taf_state_index th data 2) enum_thread_node.undef).pos
  let x4 := (th.state.getD (taf_state_index th data 3) enum_thread_node.undef).pos
  let b1 : vector_t K := { x := x1.x - x2.x, y := x1.y - x2.y, z := x1.z - x2.z }
  let b2 : vector_t K := { x := x2.x - x3.x, y := x2.y - x3.y, z := x2.z - x3.z }
  let b3 : vector_t K := { x := x3.x - x4.x, y := x3.y - x4.y, z := x3.z - x4.z }
  let n1 := vector_normalize m (vector_cross b1 b2)
  let n2 := vector_normalize m (vector_cross b2 b3)
  let b2n := vector_normalize m b2
  let mm := vector_cross n1 b2n
  (vector_dot n1 n2, vector_dot mm n2)

/-- `enum_prune_taf`: the verdict (1 prunes, 0 keeps) and the updated payload. -/
def enum_prune_taf (m : Libm K) (E : enum_t K) (th : enum_thread_t K)
    (data : enum_prune_taf_t K) : Nat × enum_prune_taf_t K :=
  let omega := taf_omega m th data
  let data1 := { data with ntest := uadd data.ntest 1 }
  if Dbl.gt (data1.bound.l - omega) E.ddf_tol || Dbl.gt (omega - data1.bound.u) E.ddf_tol then
    (1, { data1 with nprune := uadd data1.nprune 1 })
  else
    (0, data1)

/-- A sequence of applications of `enum_prune_taf` to one payload, one per thread state
of the list: the verdicts in order and the payload after the last application. -/
def enum_prune_taf_seq (m : Libm K) (E : enum_t K) :
    List (enum_thread_t K) → enum_prune_taf_t K → List Nat × enum_prune_taf_t K
  | [], data => ([], data)
  | th :: ths, data =>
    ((enum_prune_taf m E th data).1 ::
        (enum_prune_taf_seq m E ths (enum_prune_taf m E th data).2).1,
      (enum_prune_taf_seq m E ths (enum_prune_taf m E th data).2).2)

/-- The atom indices `a0..a3` recovered by `enum_prune_taf_report`:
`order[lev - taf_data->n[k]]`. -/
def taf_report_atoms (E : enum_t K) (lev : Nat) (data : enum_prune_taf_t K) (k : Fin 4) : Nat :=
  E.G.order.getD (usub lev (data.n k)) 0

/-- The arguments of the `printf` of `enum_prune_taf_report`. -/
structure taf_report_line (K : Type) where
  res : Fin 4 → Char
  r : Fin 4 → Nat
  atom : Fin 4 → String
  nprune : Nat
  ntest : Nat
  f : Dbl K

/-- `enum_prune_taf_report`: nothing when the array does not match or the closure never
pruned, else the statistics line.  `peptide_get_reschar` is taken as a parameter. -/
def enum_prune_taf_report (peptide_get_reschar : peptide_t K → Nat → Char) (E : enum_t K)
    (arr : dihed_ref) (lev : Nat) (data : enum_prune_taf_t K) : Option (taf_report_line K) :=
  if data.arr ≠ arr ∨ data.nprune = 0 then none
  else
    let a : Fin 4 → Nat := taf_report_atoms E lev data
    let r : Fin 4 → Nat := fun k => (E.P.atoms.getD (a k) ⟨"", "", 0⟩).res_id
    some
      { res := fun k => peptide_get_reschar E.P (r k)
        r := fun k => uadd (r k) 1
        atom := fun k => (E.P.atoms.getD (a k) ⟨"", "", 0⟩).name
        nprune := data.nprune
        ntest := data.ntest
        f := Dbl.fin (data.nprune : K) / Dbl.fin (data.ntest : K) * Dbl.fin 100 }

/-- `enum_prune_dihe_report`: the report against the array of torsions. -/
def enum_prune_dihe_report (peptide_get_reschar : peptide_t K → Nat → Char) (E : enum_t K)
    (lev : Nat) (data : enum_prune_taf_t K) : Option (taf_report_line K) :=
  enum_prune_taf_report peptide_get_reschar E dihed_ref.torsions lev data

/-- `enum_prune_impr_report`: the report against the array of impropers. -/
def enum_prune_impr_report (peptide_get_reschar : peptide_t K → Nat → Char) (E : enum_t K)
    (lev : Nat) (data : enum_prune_taf_t K) : Option (taf_report_line K) :=
  enum_prune_taf_report peptide_get_reschar E dihed_ref.impropers lev data

end Taf

/-! ## dmdgp.c -/

/-- A piece written to the header by one `fprintf`: literal text, a residue code
(`" %s"`), a sidechain token (`" %s%-4u"`) or the line continuation (`"\n#"`). -/
inductive header_piece where
  | text (s : String)
  | code (c : String)
  | sidechain (c : String) (seq : Nat)
  | cont
deriving DecidableEq, Repr

/-- The body of the two loops of `dmdgp_write_header` at index `i` of `n`: the piece of the
item, then the continuation when `(i + 1) % k == 0 && i < n - 1`. -/
def header_loop (k n : Nat) : Nat → List header_piece → List header_piece
  | _, [] => []
  | i, c :: cs =>
    c :: ((if uadd i 1 % k = 0 ∧ i < usub n 1 then [header_piece.cont] else []) ++
      header_loop k n (uadd i 1) cs)

/-- The piece `" %s"` of each residue, in residue order. -/
def header_codes {K : Type} (code3 : Nat → String) (P : peptide_t K) : List header_piece :=
  P.res.map (fun r => header_piece.code (code3 r))

/-- The piece `" %s%-4u"` of each explicit sidechain, in array order. -/
def header_sidechains {K : Type} (code3 : Nat → String) (P : peptide_t K) :
    List header_piece :=
  P.sc.map (fun r => header_piece.sidechain (code3 (P.res.getD r 0)) (uadd r 1))

/-- `dmdgp_write_header`: the pieces written (the function always returns 1).
`resid_get_code3` is taken as the parameter `code3`. -/
def dmdgp_write_header {K : Type} (code3 : Nat → String) (P : peptide_t K)
    (fname : String) : List header_piece :=
  [header_piece.text ("# " ++ fname ++ "\n"),
   header_piece.text "# automatically generated by ibp-ng\n\n",
   header_piece.text "# sequence:\n",
   header_piece.text "#"] ++
  header_loop 15 P.res.length 0 (header_codes code3 P) ++
  [header_piece.text "\n\n",
   header_piece.text "# explicit sidechains:\n",
   header_piece.text "#"] ++
  header_loop 5 P.sc.length 0 (header_sidechains code3 P) ++
  [header_piece.text "\n\n"]

/-- A line written by `dmdgp_write_edges` or `dmdgp_write_dihedrals`, as the arguments of
its `fprintf`.  An atom in a comment is its residue code, residue number and name. -/
inductive dmdgp_line (K : Type) where
  | count (label : String) (n : Nat)
  | begin_section (name : String)
  | end_section (name : String)
  | edge_exact (i j : Nat) (d : Dbl K) (ci cj : String × Nat × String)
  | edge_interval (i j : Nat) (l u : Dbl K) (ci cj : String × Nat × String)
  | dihed_exact (a0 a1 a2 a3 : Nat) (ang : Dbl K)
  | dihed_interval (a0 a1 a2 a3 : Nat) (l u : Dbl K)
deriving DecidableEq, Repr

section Writer

variable {K : Type}

/-- The value read for a table entry outside the table (undefined in C). -/
def value_t.undef : value_t K :=
  { type := value_type_t.VALUE_TYPE_UNDEFINED, l := Dbl.nan, u := Dbl.nan }

/-- The comment arguments for atom `i`: residue code, residue number, atom name. -/
def atom_comment (code3 : Nat → String) (P : peptide_t K) (i : Nat) : String × Nat × String :=
  let a := P.atoms.getD i { name := "", type := "", res_id := 0 }
  (code3 (P.res.getD a.res_id 0), uadd a.res_id 1, a.name)

/-- The body of the inner loop of `dmdgp_write_edges` for the pair `(i, j)`. -/
def dmdgp_edge_body (graph_has_edge : graph_t K → Nat → Nat → value_type_t)
    (code3 : Nat → String) (P : peptide_t K) (G : graph_t K) (i j : Nat) :
    List (dmdgp_line K) :=
  let et := graph_has_edge G i j
  if et = value_type_t.VALUE_TYPE_SCALAR then
    [dmdgp_line.edge_exact (uadd i 1) (uadd j 1)
      (G.E.getD (uadd i (umul G.nv j)) value_t.undef).l
      (atom_comment code3 P i) (atom_comment code3 P j)]
  else if et = value_type_t.VALUE_TYPE_INTERVAL then
    [dmdgp_line.edge_interval (uadd i 1) (uadd j 1)
      (G.E.getD (uadd i (umul G.nv j)) value_t.undef).l
      (G.E.getD (uadd i (umul G.nv j)) value_t.undef).u
      (atom_comment code3 P i) (atom_comment code3 P j)]
  else []

/-- `dmdgp_write_edges`: the lines written (the function always returns 1).  The loops
run `i` over `0 .. nv - 1` and `j` over `i + 1 .. nv - 1`.  `graph_count_edges`,
`graph_has_edge` and `resid_get_code3` are taken as parameters. -/
def dmdgp_write_edges (graph_count_edges : graph_t K → Nat × Nat)
    (graph_has_edge : graph_t K → Nat → Nat → value_type_t) (code3 : Nat → String)
    (P : peptide_t K) (G : graph_t K) : List (dmdgp_line K) :=
  [dmdgp_line.count "exact edges" (graph_count_edges G).1,
   dmdgp_line.count "interval edges" (graph_count_edges G).2,
   dmdgp_line.begin_section "edges"] ++
  (List.range G.nv).flatMap (fun i =>
    (List.range' (uadd i 1) (G.nv - uadd i 1)).flatMap (fun j =>
      dmdgp_edge_body graph_has_edge code3 P G i j)) ++
  [dmdgp_line.end_section "edges"]

/-- The first and second loops of `dmdgp_write_dihedrals`: an entry is skipped when its
angle is an interval, else written as a `D` line. -/
def dihed_exact_loop : List (peptide_dihed_t K) → List (dmdgp_line K)
  | [] => []
  | t :: rest =>
    if value_is_interval t.ang = true then dihed_exact_loop rest
    else
      dmdgp_line.dihed_exact (uadd (t.atom_id 0) 1) (uadd (t.atom_id 1) 1)
        (uadd (t.atom_id 2) 1) (uadd (t.atom_id 3) 1) t.ang.l :: dihed_exact_loop rest

/-- The third and fourth loops of `dmdgp_write_dihedrals`: an entry is skipped when its
angle is a scalar, else written as an `I` line. -/
def dihed_interval_loop : List (peptide_dihed_t K) → List (dmdgp_line K)
  | [] => []
  | t :: rest =>
    if value_is_scalar t.ang = true then dihed_interval_loop rest
    else
      dmdgp_line.dihed_interval (uadd (t.atom_id 0) 1) (uadd (t.atom_id 1) 1)
        (uadd (t.atom_id 2) 1) (uadd (t.atom_id 3) 1) t.ang.l t.ang.u ::
        dihed_interval_loop rest

/-- `dmdgp_write_dihedrals`: the lines written (the function always returns 1). -/
def dmdgp_write_dihedrals (P : peptide_t K) : List (dmdgp_line K) :=
  [dmdgp_line.count "dihedrals" P.torsions.length,
   dmdgp_line.count "impropers" P.impropers.length,
   dmdgp_line.begin_section "dihedral_angles"] ++
  dihed_exact_loop P.torsions ++ dihed_exact_loop P.impropers ++
  dihed_interval_loop P.torsions ++ dihed_interval_loop P.impropers ++
  [dmdgp_line.end_section "dihedral_angles"]

end Writer

/-- The width loop of `dmdgp_write` from the state `(n_fmt, i_fmt)`, run for at most
`fuel` tests of its condition: `none` when it has not exited by then. -/
def dmdgp_fmt_loop (n_atoms : Nat) : Nat → Nat → Nat → Option Nat
  | 0, _, _ => none
  | fuel + 1, n_fmt, i_fmt =>
    if i_fmt ≤ n_atoms then dmdgp_fmt_loop n_atoms fuel (uadd n_fmt 1) (umul i_fmt 10)
    else some n_fmt

/-- The index field width `n_fmt` computed by `dmdgp_write`, from `n_fmt = i_fmt = 1`. -/
def dmdgp_n_fmt (fuel n_atoms : Nat) : Option Nat :=
  dmdgp_fmt_loop n_atoms fuel 1 1

/-! ## The header lines in the words of the specification -/

/-- The rows of at most `k` items: `k` items per row while more than `k` remain, then the
rest; `fuel` bounds the number of full rows. -/
def header_rows_aux {α : Type} (k : Nat) : Nat → List α → List (List α)
  | 0, l => [l]
  | fuel + 1, l =>
    if l.length ≤ k then [l] else l.take k :: header_rows_aux k fuel (l.drop k)

/-- The items laid out `k` per line: every line but the last holds exactly `k`. -/
def header_rows {α : Type} (k : Nat) (l : List α) : List (List α) :=
  header_rows_aux k l.length l

/-- The lines written one after the other, with the continuation `"\n#"` between two
consecutive lines. -/
def header_join : List (List header_piece) → List header_piece
  | [] => []
  | [r] => r
  | r :: r1 :: rs => r ++ header_piece.cont :: header_join (r1 :: rs)

/-! ## The dihedral and edge sections in the words of the specification -/

section WriterSpec

variable {K : Type}

/-- The `D` line of a dihedral: its four atom ids plus one, and its angle. -/
def dihed_D_line (t : peptide_dihed_t K) : dmdgp_line K :=
  dmdgp_line.dihed_exact (t.atom_id 0 + 1) (t.atom_id 1 + 1) (t.atom_id 2 + 1)
    (t.atom_id 3 + 1) t.ang.l

/-- The `I` line of a dihedral: its four atom ids plus one, and the ends of its angle. -/
def dihed_I_line (t : peptide_dihed_t K) : dmdgp_line K :=
  dmdgp_line.dihed_interval (t.atom_id 0 + 1) (t.atom_id 1 + 1) (t.atom_id 2 + 1)
    (t.atom_id 3 + 1) t.ang.l t.ang.u

/-- The dihedral section as the specification words it: the exact torsions as `D` lines,
then the exact impropers as `D` lines, then the interval torsions as `I` lines, then the
interval impropers as `I` lines, each block in array order. -/
def dihed_section_spec (P : peptide_t K) : List (dmdgp_line K) :=
  [dmdgp_line.count "dihedrals" P.torsions.length,
   dmdgp_line.count "impropers" P.impropers.length,
   dmdgp_line.begin_section "dihedral_angles"] ++
  (P.torsions.filter (fun t => value_is_scalar t.ang)).map dihed_D_line ++
  (P.impropers.filter (fun t => value_is_scalar t.ang)).map dihed_D_line ++
  (P.torsions.filter (fun t => value_is_interval t.ang)).map dihed_I_line ++
  (P.impropers.filter (fun t => value_is_interval t.ang)).map dihed_I_line ++
  [dmdgp_line.end_section "dihedral_angles"]

end WriterSpec

section EdgeSpec

variable {K : Type}

/-- The pairs `(i, j)` with `i < j < nv`, in lexicographic order. -/
def edge_pairs (nv : Nat) : List (Nat × Nat) :=
  (List.range nv).flatMap (fun i => (List.range' (i + 1) (nv - (i + 1))).map (fun j => (i, j)))

/-- The line of the specification for the pair `p = (i, j)`: `i+1 j+1 D d` for an exact
edge, `i+1 j+1 I l u` for an interval edge, with the values of the table entry
`E[i + nv * j]`, and no line for an undefined edge. -/
def edge_line (graph_has_edge : graph_t K → Nat → Nat → value_type_t) (code3 : Nat → String)
    (P : peptide_t K) (G : graph_t K) (p : Nat × Nat) : Option (dmdgp_line K) :=
  match graph_has_edge G p.1 p.2 with
  | value_type_t.VALUE_TYPE_SCALAR =>
    some (dmdgp_line.edge_exact (p.1 + 1) (p.2 + 1)
      (G.E.getD (p.1 + G.nv * p.2) value_t.undef).l
      (atom_comment code3 P p.1) (atom_comment code3 P p.2))
  | value_type_t.VALUE_TYPE_INTERVAL =>
    some (dmdgp_line.edge_interval (p.1 + 1) (p.2 + 1)
      (G.E.getD (p.1 + G.nv * p.2) value_t.undef).l
      (G.E.getD (p.1 + G.nv * p.2) value_t.undef).u
      (atom_comment code3 P p.1) (atom_comment code3 P p.2))
  | value_type_t.VALUE_TYPE_UNDEFINED => none

end EdgeSpec

/-- A graph on three vertices with the exact edge (0, 1), the interval edge (0, 2) and no
edge (1, 2); the table is indexed `i + 3 * j`. -/
def graph3 : graph_t ℚ :=
  { nv := 3
    order := [0, 1, 2]
    E := [⟨value_type_t.VALUE_TYPE_UNDEFINED, Dbl.fin 0, Dbl.fin 0⟩,
          ⟨value_type_t.VALUE_TYPE_SCALAR, Dbl.fin 1, Dbl.fin 1⟩,
          ⟨value_type_t.VALUE_TYPE_INTERVAL, Dbl.fin 2, Dbl.fin 3⟩,
          ⟨value_type_t.VALUE_TYPE_SCALAR, Dbl.fin 1, Dbl.fin 1⟩,
          ⟨value_type_t.VALUE_TYPE_UNDEFINED, Dbl.fin 0, Dbl.fin 0⟩,
          ⟨value_type_t.VALUE_TYPE_UNDEFINED, Dbl.fin 0, Dbl.fin 0⟩,
          ⟨value_type_t.VALUE_TYPE_INTERVAL, Dbl.fin 2, Dbl.fin 3⟩,
          ⟨value_type_t.VALUE_TYPE_UNDEFINED, Dbl.fin 0, Dbl.fin 0⟩,
          ⟨value_type_t.VALUE_TYPE_UNDEFINED, Dbl.fin 0, Dbl.fin 0⟩] }

/-- Modelled from the spec: `graph_has_edge` is defined in the absent `graph.c`;
`has_edge(i,j)` returns the value kind of the table entry of the pair. -/
def graph_has_edge {K : Type} (G : graph_t K) (i j : Nat) : value_type_t :=
  (G.E.getD (i + G.nv * j) value_t.undef).type

/-- Modelled from the spec: `graph_count_edges` is defined in the absent `graph.c`;
`count_edges` splits the edges of the pairs `i < j` into exact and interval counts. -/
def graph_count_edges {K : Type} (G : graph_t K) : Nat × Nat :=
  (((edge_pairs G.nv).filter
      (fun p => decide (graph_has_edge G p.1 p.2 = value_type_t.VALUE_TYPE_SCALAR))).length,
   ((edge_pairs G.nv).filter
      (fun p => decide (graph_has_edge G p.1 p.2 = value_type_t.VALUE_TYPE_INTERVAL))).length)

/-- A peptide of three atoms in one residue, without dihedrals. -/
def peptide3 : peptide_t ℚ :=
  { res := [0]
    atoms := [⟨"N", "N", 0⟩, ⟨"CA", "CT", 0⟩, ⟨"C", "C", 0⟩]
    torsions := [], impropers := [], sc := [] }

/-- A residue code table: every residue is glycine. -/
def code3Gly : Nat → String := fun _ => "GLY"

/-- A peptide whose only dihedral is a torsion over the atoms 0, 1, 2, 3 with an
undefined angle. -/
def peptideUndef : peptide_t ℚ :=
  { res := [], atoms := [], impropers := [], sc := []
    torsions := [{ atom_id := ![0, 1, 2, 3]
                   ang := { type := value_type_t.VALUE_TYPE_UNDEFINED
                            l := Dbl.fin 0, u := Dbl.fin 0 } }] }

/-! ## The normalize operation as specified, and concrete data -/

/-- Error kinds of the specification (taxonomy of its section 7). -/
inductive ErrorKind where
  | AllocationFailure
  | InvalidOrder
  | InvalidDomain
  | DegenerateVector
  | UnknownAtom
  | DuplicateDihedral
  | IOFailure
deriving DecidableEq, Repr

/-- The normalize operation in the words of the specification: it fails with
`DegenerateVector` when the length is below `eps`, and otherwise scales to unit length. -/
def vector_normalize_spec {K : Type} [LinearOrderedField K] (m : Libm K) (eps : K)
    (a : vector_t K) : Except ErrorKind (vector_t K) :=
  if Dbl.gt (Dbl.fin eps) (vector_len m a) then Except.error ErrorKind.DegenerateVector
  else Except.ok (vector_normalize m a)

/-- A rational stand-in for libm: one Newton step for the square root (exact at 0 and 1)
and the diamond-angle approximation of `atan2` with `pi` taken as `22/7`. -/
def approxLibm : Libm ℚ where
  sqrt := fun s => if s = 0 then 0 else (s + 1) / 2
  atan2 := fun y x =>
    if |x| + |y| = 0 then 0
    else
      let a := 11 / 7 * (|y| / (|x| + |y|))
      if 0 ≤ x then (if 0 ≤ y then a else -a)
      else (if 0 ≤ y then 22 / 7 - a else -(22 / 7 - a))
  M_PI := 22 / 7

/-- A finite vector. -/
def vec {K : Type} (x y z : K) : vector_t K :=
  { x := Dbl.fin x, y := Dbl.fin y, z := Dbl.fin z }

/-- Four positions with a right-angle dihedral, stored at levels 0..3. -/
def state4 : List (enum_thread_node ℚ) :=
  [⟨vec 0 1 0⟩, ⟨vec 0 0 0⟩, ⟨vec 1 0 0⟩, ⟨vec 1 0 1⟩]

/-- A thread at level 3 over `state4`. -/
def thread3 : enum_thread_t ℚ := { level := 3, state := state4 }

/-- A payload reading levels 0, 1, 2, 3 from level 3, bounded by `[1, 2]` radians. -/
def payload3 : enum_prune_taf_t ℚ :=
  { ntest := 0, nprune := 0, arr := dihed_ref.torsions
    n := ![3, 2, 1, 0]
    bound := { type := value_type_t.VALUE_TYPE_INTERVAL, l := Dbl.fin 1, u := Dbl.fin 2 } }

/-- An enumerator over the order 0, 1, 2, 3, 4 with tolerance `1/1000`. -/
def enum5 : enum_t ℚ :=
  { G := { nv := 5, E := [], order := [0, 1, 2, 3, 4] }
    P := { res := [], atoms := [], torsions := [], impropers := [], sc := [] }
    ddf_tol := Dbl.fin (1 / 1000)
    prune := [] }

/-! ## Registration in the words of the specification -/

section TafSpec

variable {K : Type}

/-- The registration condition of the specification: the atom just embedded,
`order[lev]`, is one of the four atoms and all four atoms occur in `order[0..lev]`. -/
def taf_matches (order : List Nat) (lev : Nat) (d : peptide_dihed_t K) : Bool :=
  decide ((∃ k : Fin 4, order.getD lev 0 = d.atom_id k) ∧
    ∀ k : Fin 4, d.atom_id k ∈ order.take (lev + 1))

/-- All four atoms of the dihedral occur in the order. -/
def taf_complete (order : List Nat) (d : peptide_dihed_t K) : Bool :=
  decide (∀ k : Fin 4, d.atom_id k ∈ order)

/-- The largest order position of the four atoms of the dihedral. -/
def taf_maxpos (order : List Nat) (d : peptide_dihed_t K) : Nat :=
  max (max (order.indexOf (d.atom_id 0)) (order.indexOf (d.atom_id 1)))
    (max (order.indexOf (d.atom_id 2)) (order.indexOf (d.atom_id 3)))

/-- The closures of the specification for level `lev`: in array order, one for each entry
that meets the registration condition `taf_matches`, tagged with the level. -/
def taf_closures [LinearOrderedField K] (m : Libm K)
    (value_scal : value_t K → Dbl K → value_t K) (arrp : dihed_ref) (order : List Nat)
    (lev : Nat) (arr : List (peptide_dihed_t K)) : List (Nat × enum_prune_taf_t K) :=
  (arr.filter (taf_matches order lev)).map
    (fun d => (lev, taf_payload m value_scal arrp order lev d))

/-- The descent: `taf_init` called once at each of the levels `0 .. n - 1`, in order. -/
def taf_descent [LinearOrderedField K] (m : Libm K)
    (value_scal : value_t K → Dbl K → value_t K) (h : Heap) (arrp : dihed_ref)
    (arr : List (peptide_dihed_t K)) : Nat → enum_t K → enum_t K
  | 0, E => E
  | n + 1, E => (taf_init m value_scal h (taf_descent m value_scal h arrp arr n E) arrp arr n).2

end TafSpec

/-- A heap on which every allocation succeeds. -/
def heapOk : Heap := { malloc := fun _ => true, add_closure := fun _ => true }

/-- Modelled from the spec: `value_scal` is declared in `value.h` and defined in the
absent `value.c`; scalar multiply of both ends by `p`. -/
def value_scal {K : Type} [LinearOrderedField K] (v : value_t K) (p : Dbl K) : value_t K :=
  { type := v.type, l := v.l * p, u := v.u * p }

/-- The dihedral over the atoms 0, 1, 2, 3 with the angle interval `[-5, 5]` degrees. -/
def dihed0123 : peptide_dihed_t ℚ :=
  { atom_id := ![0, 1, 2, 3]
    ang := { type := value_type_t.VALUE_TYPE_INTERVAL, l := Dbl.fin (-5), u := Dbl.fin 5 } }

/-- A dihedral with an atom, 7, that the order of `enum5` does not hold. -/
def dihed0127 : peptide_dihed_t ℚ :=
  { atom_id := ![0, 1, 2, 7]
    ang := { type := value_type_t.VALUE_TYPE_SCALAR, l := Dbl.fin 180, u := Dbl.fin 180 } }

/-! ## Degenerate positions and reflections -/

/-- Four collinear positions, stored at levels 0..3: every plane normal is the zero
vector. -/
def stateCollinear : List (enum_thread_node ℚ) :=
  [⟨vec 0 0 0⟩, ⟨vec 1 0 0⟩, ⟨vec 2 0 0⟩, ⟨vec 3 0 0⟩]

/-- A thread at level 3 over `stateCollinear`. -/
def threadCollinear : enum_thread_t ℚ := { level := 3, state := stateCollinear }

/-- A payload reading levels 0, 1, 2, 3 from level 3 with the wrapped bound `[3, -3]`
radians (about 170 and -170 degrees). -/
def payloadWrapped : enum_prune_taf_t ℚ :=
  { ntest := 0, nprune := 0, arr := dihed_ref.torsions
    n := ![3, 2, 1, 0]
    bound := { type := value_type_t.VALUE_TYPE_INTERVAL, l := Dbl.fin 3, u := Dbl.fin (-3) } }

/-- A point or direction of space with number coordinates. -/
structure V3 (K : Type) where
  x : K
  y : K
  z : K
deriving DecidableEq, Repr

namespace V3

variable {K : Type} [Field K]

/-- The vector of doubles holding the coordinates. -/
def toVec (a : V3 K) : vector_t K := vec a.x a.y a.z

/-- Difference of two points. -/
def sub (a b : V3 K) : V3 K := ⟨a.x - b.x, a.y - b.y, a.z - b.z⟩

/-- Opposite vector. -/
def neg (a : V3 K) : V3 K := ⟨-a.x, -a.y, -a.z⟩

/-- Dot product. -/
def dot (a b : V3 K) : K := a.x * b.x + a.y * b.y + a.z * b.z

/-- Cross product. -/
def cross (a b : V3 K) : V3 K :=
  ⟨a.y * b.z - a.z * b.y, a.z * b.x - a.x * b.z, a.x * b.y - a.y * b.x⟩

/-- Division of every coordinate by a number. -/
def divs (a : V3 K) (l : K) : V3 K := ⟨a.x / l, a.y / l, a.z / l⟩

/-- The linear part of the reflection through a plane of unit normal `u`. -/
def mirror (u a : V3 K) : V3 K :=
  ⟨a.x - 2 * dot u a * u.x, a.y - 2 * dot u a * u.y, a.z - 2 * dot u a * u.z⟩

/-- The reflection of the point `a` through the plane `dot u a = c` of unit normal `u`. -/
def reflect (u : V3 K) (c : K) (a : V3 K) : V3 K :=
  ⟨a.x - 2 * (dot u a - c) * u.x, a.y - 2 * (dot u a - c) * u.y,
    a.z - 2 * (dot u a - c) * u.z⟩

end V3

/-- The payload `taf_init` creates at level 3 of the order of `enum5` for `dihed0123`. -/
def payloadInit : enum_prune_taf_t ℚ :=
  taf_payload approxLibm value_scal dihed_ref.torsions enum5.G.order 3 dihed0123

/-- The lines of the dihedral section between `begin dihedral_angles` and
`end dihedral_angles`: all but the three opening lines and the closing line. -/
def dmdgp_dihedral_lines {K : Type} (P : peptide_t K) : List (dmdgp_line K) :=
  ((dmdgp_write_dihedrals P).drop 3).dropLast

/-- The number of entries of a dihedral array whose angle is undefined. -/
def undefined_count {K : Type} (l : List (peptide_dihed_t K)) : Nat :=
  (l.filter (fun t => decide (t.ang.type = value_type_t.VALUE_TYPE_UNDEFINED))).length

namespace V3

variable {K : Type} [Field K]

/-- The value `x = n1 . n2` of the dihedral kernel for the bonds `b1`, `b2`, `b3` in number
coordinates: the dot product of the two normalized plane normals. -/
def kernel_x (m : Libm K) (b1 b2 b3 : V3 K) : K :=
  dot (divs (cross b1 b2) (m.sqrt (dot (cross b1 b2) (cross b1 b2))))
    (divs (cross b2 b3) (m.sqrt (dot (cross b2 b3) (cross b2 b3))))

/-- The value `y = m . n2` of the dihedral kernel for the bonds `b1`, `b2`, `b3` in number
coordinates, with `m = n1 x b2 / |b2|`. -/
def kernel_y (m : Libm K) (b1 b2 b3 : V3 K) : K :=
  dot (cross (divs (cross b1 b2) (m.sqrt (dot (cross b1 b2) (cross b1 b2))))
      (divs b2 (m.sqrt (dot b2 b2))))
    (divs (cross b2 b3) (m.sqrt (dot (cross b2 b3) (cross b2 b3))))

end V3

/-- The positions of `state4` over any ordered field: the first three lie in the plane
`z = 0`. -/
def state4K (K : Type) [LinearOrderedField K] : List (enum_thread_node K) :=
  [⟨vec 0 1 0⟩, ⟨vec 0 0 0⟩, ⟨vec 1 0 0⟩, ⟨vec 1 0 1⟩]

/-- The positions of `state4K` with every `z` coordinate negated: the fourth atom is the
other candidate, its mirror image through the plane of the first three. -/
def state4KMirror (K : Type) [LinearOrderedField K] : List (enum_thread_node K) :=
  [⟨vec 0 1 0⟩, ⟨vec 0 0 0⟩, ⟨vec 1 0 0⟩, ⟨vec 1 0 (-1)⟩]

/-- A payload over any ordered field reading levels 0, 1, 2, 3 from level 3, bounded by
`[1, 2]` radians. -/
def payload3K (K : Type) [LinearOrderedField K] : enum_prune_taf_t K :=
  { ntest := 0, nprune := 0, arr := dihed_ref.torsions
    n := ![3, 2, 1, 0]
    bound := { type := value_type_t.VALUE_TYPE_INTERVAL, l := Dbl.fin 1, u := Dbl.fin 2 } }

/-- A residue code table with three codes. -/
def code3Three : Nat → String := fun r =>
  if r = 0 then "GLY" else if r = 1 then "ALA" else "SER"

/-- A peptide of sixteen residues of three kinds, six of them with explicit sidechains. -/
def peptideMixed : peptide_t ℚ :=
  { res := [0, 1, 2, 0, 1, 2, 0, 1, 2, 0, 1, 2, 0, 1, 2, 1]
    atoms := [], torsions := [], impropers := []
    sc := [1, 2, 4, 5, 7, 15] }

/-- The entry at index `idx` of the edge table of `graphWide`, a symmetric table indexed
`i + 65537 * j`: the exact edge (0, 1) of length 7, the exact edge (1, 65536) of length 9,
and no other edge. -/
def wideEntry (idx : Nat) : value_t ℚ :=
  if idx = 65537 ∨ idx = 1 then
    { type := value_type_t.VALUE_TYPE_SCALAR, l := Dbl.fin 7, u := Dbl.fin 7 }
  else if idx = 4295032833 ∨ idx = 131073 then
    { type := value_type_t.VALUE_TYPE_SCALAR, l := Dbl.fin 9, u := Dbl.fin 9 }
  else
    { type := value_type_t.VALUE_TYPE_UNDEFINED, l := Dbl.fin 0, u := Dbl.fin 0 }

/-- The table of `65537 * 65537` entries, entry `idx` being `wideEntry idx`. -/
def wideTable : List (value_t ℚ) :=
  (List.range (65537 * 65537)).map wideEntry

/-- A graph on 65537 vertices with the table `wideTable`. -/
def graphWide : graph_t ℚ :=
  { nv := 65537
    order := []
    E := wideTable }

/-- A peptide of 65537 atoms in one residue, without dihedrals. -/
def peptideWide : peptide_t ℚ :=
  { res := [0]
    atoms := (List.range 65537).map (fun _ => { name := "CA", type := "CT", res_id := 0 })
    torsions := [], impropers := [], sc := [] }

/-! # Theorems -/

section DblLemmas

variable {K : Type} [LinearOrderedField K]

@[simp] theorem Dbl.fin_add_fin (a b : K) : Dbl.fin a + Dbl.fin b = Dbl.fin (a + b) := rfl

@[simp] theorem Dbl.fin_sub_fin (a b : K) : Dbl.fin a - Dbl.fin b = Dbl.fin (a - b) := rfl

@[simp] theorem Dbl.fin_mul_fin (a b : K) : Dbl.fin a * Dbl.fin b = Dbl.fin (a * b) := rfl

@[simp] theorem Dbl.fin_div_fin (a b : K) :
    Dbl.fin a / Dbl.fin b = if b = 0 then Dbl.nan else Dbl.fin (a / b) := rfl

@[simp] theorem Dbl.nan_add (a : Dbl K) : Dbl.nan + a = Dbl.nan := rfl

@[simp] theorem Dbl.add_nan (a : Dbl K) : a + Dbl.nan = Dbl.nan := by cases a <;> rfl

@[simp] theorem Dbl.nan_sub (a : Dbl K) : Dbl.nan - a = Dbl.nan := rfl

@[simp] theorem Dbl.sub_nan (a : Dbl K) : a - Dbl.nan = Dbl.nan := by cases a <;> rfl

@[simp] theorem Dbl.nan_mul (a : Dbl K) : Dbl.nan * a = Dbl.nan := rfl

@[simp] theorem Dbl.mul_nan (a : Dbl K) : a * Dbl.nan = Dbl.nan := by cases a <;> rfl

@[simp] theorem Dbl.nan_div (a : Dbl K) : Dbl.nan / a = Dbl.nan := rfl

@[simp] theorem Dbl.div_nan (a : Dbl K) : a / Dbl.nan = Dbl.nan := by cases a <;> rfl

@[simp] theorem Dbl.gt_fin_fin (a b : K) : Dbl.gt (Dbl.fin a) (Dbl.fin b) = decide (b < a) := rfl

@[simp] theorem Dbl.gt_nan_left (a : Dbl K) : Dbl.gt Dbl.nan a = false := rfl

@[simp] theorem Dbl.gt_nan_right (a : Dbl K) : Dbl.gt a Dbl.nan = false := by cases a <;> rfl

@[simp] theorem Dbl.sqrt_fin (m : Libm K) (a : K) :
    Dbl.sqrt m (Dbl.fin a) = if a < 0 then Dbl.nan else Dbl.fin (m.sqrt a) := rfl

@[simp] theorem Dbl.sqrt_nan (m : Libm K) : Dbl.sqrt m (Dbl.nan : Dbl K) = Dbl.nan := rfl

end DblLemmas

@[simp] theorem Dbl.atan2_fin_fin {K : Type} (m : Libm K) (y x : K) :
    Dbl.atan2 m (Dbl.fin y) (Dbl.fin x) = Dbl.fin (m.atan2 y x) := rfl

/-- The dihedral of the four positions of `state4`, as `approxLibm` evaluates it. -/
theorem taf_omega_thread3 : taf_omega approxLibm thread3 payload3 = Dbl.fin (11 / 7) := by
  simp [taf_omega, taf_state_index, usub, u32, thread3, state4, payload3, vec,
    vector_normalize, vector_len, vector_cross, vector_dot, approxLibm]
  norm_num

/-! ## C1: the verdict of `enum_prune_taf` -/

/-- A vector of numbers with a nonzero computed length normalizes to a vector of
numbers. -/
theorem vector_normalize_fin {K : Type} [LinearOrderedField K] (m : Libm K) (x y z : K)
    (h : m.sqrt (x * x + y * y + z * z) ≠ 0) :
    vector_normalize m (vec x y z) =
      vec (x / m.sqrt (x * x + y * y + z * z)) (y / m.sqrt (x * x + y * y + z * z))
        (z / m.sqrt (x * x + y * y + z * z)) := by
  have hs : ¬ (x * x + y * y + z * z < 0) :=
    not_lt.mpr (add_nonneg (add_nonneg (mul_self_nonneg x) (mul_self_nonneg y))
      (mul_self_nonneg z))
  simp [vector_normalize, vector_len, vec, hs, h]

/-- General position gives a number: when the four positions read are vectors of numbers
and the two plane normals and the middle bond have nonzero computed lengths, the dihedral
computed by `enum_prune_taf` is a number. -/
theorem taf_omega_general_position {K : Type} [LinearOrderedField K] (m : Libm K)
    (th : enum_thread_t K) (data : enum_prune_taf_t K) (p : Fin 4 → K × K × K)
    (hp : ∀ k : Fin 4,
      (th.state.getD (taf_state_index th data k) enum_thread_node.undef).pos =
        vec (p k).1 (p k).2.1 (p k).2.2)
    (hn1 : vector_len m (vector_cross
        (vec ((p 0).1 - (p 1).1) ((p 0).2.1 - (p 1).2.1) ((p 0).2.2 - (p 1).2.2))
        (vec ((p 1).1 - (p 2).1) ((p 1).2.1 - (p 2).2.1) ((p 1).2.2 - (p 2).2.2))) ≠ Dbl.fin 0)
    (hn2 : vector_len m (vector_cross
        (vec ((p 1).1 - (p 2).1) ((p 1).2.1 - (p 2).2.1) ((p 1).2.2 - (p 2).2.2))
        (vec ((p 2).1 - (p 3).1) ((p 2).2.1 - (p 3).2.1) ((p 2).2.2 - (p 3).2.2))) ≠ Dbl.fin 0)
    (hb2 : vector_len m
        (vec ((p 1).1 - (p 2).1) ((p 1).2.1 - (p 2).2.1) ((p 1).2.2 - (p 2).2.2)) ≠ Dbl.fin 0) :
    ∃ w : K, taf_omega m th data = Dbl.fin w := by
  have sq : ∀ x y z : K, ¬ (x * x + y * y + z * z < 0) := fun x y z =>
    not_lt.mpr (add_nonneg (add_nonneg (mul_self_nonneg x) (mul_self_nonneg y))
      (mul_self_nonneg z))
  simp only [vector_len, vector_cross, vec, Dbl.fin_mul_fin, Dbl.fin_sub_fin, Dbl.fin_add_fin,
    Dbl.sqrt_fin, sq, if_false, ne_eq, Dbl.fin.injEq] at hn1 hn2 hb2
  simp only [taf_omega, hp 0, hp 1, hp 2, hp 3, vec, Dbl.fin_sub_fin]
  simp only [vector_normalize, vector_len, vector_cross, vector_dot, Dbl.fin_mul_fin,
    Dbl.fin_sub_fin, Dbl.fin_add_fin, Dbl.sqrt_fin, sq, if_false, Dbl.fin_div_fin, hn1, hn2,
    hb2, Dbl.atan2_fin_fin]
  exact ⟨_, rfl⟩

/-- C1. For a payload bound `[l, u]`, a tolerance `t` and positions in general position
(the dihedral computed is a number `w`), `enum_prune_taf` returns 1 (prune) if and only if
`l - w > t` or `w - u > t`, and returns 0 (keep) if and only if `w` lies in
`[l - t, u + t]`. -/
theorem enum_prune_taf_verdict {K : Type} [LinearOrderedField K] (m : Libm K) (E : enum_t K)
    (th : enum_thread_t K) (data : enum_prune_taf_t K) (l u w t : K)
    (hl : data.bound.l = Dbl.fin l) (hu : data.bound.u = Dbl.fin u)
    (ht : E.ddf_tol = Dbl.fin t) (hw : taf_omega m th data = Dbl.fin w) :
    ((enum_prune_taf m E th data).1 = 1 ↔ (l - w > t ∨ w - u > t)) ∧
    ((enum_prune_taf m E th data).1 = 0 ↔ (l - t ≤ w ∧ w ≤ u + t)) := by
  simp only [enum_prune_taf, hl, hu, ht, hw, Dbl.fin_sub_fin, Dbl.gt_fin_fin]
  by_cases h1 : t < l - w
  · simp only [h1, decide_True, Bool.true_or, if_true, true_or, gt_iff_lt, true_iff,
      one_ne_zero, false_iff, not_and, not_le]
    exact ⟨trivial, fun h => absurd h (not_le.mpr (by linarith))⟩
  · by_cases h2 : t < w - u
    · simp only [h1, h2, decide_True, decide_False, Bool.false_or, if_true, or_true,
        gt_iff_lt, true_iff, one_ne_zero, false_iff, not_and, not_le]
      exact ⟨trivial, fun _ => by linarith⟩
    · simp only [h1, h2, decide_False, Bool.false_or, if_false, or_false, gt_iff_lt,
        zero_ne_one, false_iff, not_false_eq_true, true_iff, Bool.false_eq_true]
      exact ⟨trivial, by linarith [not_lt.mp h1], by linarith [not_lt.mp h2]⟩

/-- C1 at the right-angle dihedral of `state4` with bound `[1, 2]` and tolerance
`1/1000`: the dihedral `11/7` is within the bound. -/
theorem enum_prune_taf_verdict_witness :
    taf_omega approxLibm thread3 payload3 = Dbl.fin (11 / 7) ∧
    (((enum_prune_taf approxLibm enum5 thread3 payload3).1 = 1 ↔
        ((1 : ℚ) - 11 / 7 > 1 / 1000 ∨ (11 / 7 : ℚ) - 2 > 1 / 1000)) ∧
      ((enum_prune_taf approxLibm enum5 thread3 payload3).1 = 0 ↔
        ((1 : ℚ) - 1 / 1000 ≤ 11 / 7 ∧ (11 / 7 : ℚ) ≤ 2 + 1 / 1000))) :=
  ⟨taf_omega_thread3,
    enum_prune_taf_verdict approxLibm enum5 thread3 payload3 1 2 (11 / 7) (1 / 1000)
      rfl rfl rfl taf_omega_thread3⟩

/-! ## The level search `taf_level` -/

/-- The loop of `taf_level` returns the first match at or after `i`, or `i + fuel`. -/
theorem taf_level_loop_spec (order : List Nat) (id : Nat) (fuel i : Nat) :
    i ≤ taf_level_loop order id fuel i ∧ taf_level_loop order id fuel i ≤ i + fuel ∧
    (taf_level_loop order id fuel i < i + fuel →
      order.getD (taf_level_loop order id fuel i) 0 = id) ∧
    ∀ j, i ≤ j → j < taf_level_loop order id fuel i → order.getD j 0 ≠ id := by
  induction fuel generalizing i with
  | zero =>
    refine ⟨le_refl _, le_refl _, fun h => absurd h (lt_irrefl _), fun j h1 h2 => ?_⟩
    simp only [taf_level_loop] at h2
    omega
  | succ fuel ih =>
    by_cases h : order.getD i 0 = id
    · rw [taf_level_loop, if_pos h]
      exact ⟨le_refl _, by omega, fun _ => h, fun j h1 h2 => by omega⟩
    · rw [taf_level_loop, if_neg h]
      obtain ⟨h1, h2, h3, h4⟩ := ih (i + 1)
      refine ⟨by omega, by omega, fun h5 => h3 (by omega), fun j hj1 hj2 => ?_⟩
      by_cases hji : j = i
      · rw [hji]; exact h
      · exact h4 j (by omega) hj2

/-- The result of `taf_level` is at most `lev + 1`. -/
theorem taf_level_le_succ (order : List Nat) (lev id : Nat) :
    taf_level order lev id ≤ lev + 1 := by
  have h := (taf_level_loop_spec order id (lev + 1) 0).2.1
  simpa [taf_level] using h

/-- When `taf_level` finds a level at most `lev`, the order holds `id` there. -/
theorem taf_level_get (order : List Nat) (lev id : Nat) (h : taf_level order lev id ≤ lev) :
    order.getD (taf_level order lev id) 0 = id := by
  have h3 := (taf_level_loop_spec order id (lev + 1) 0).2.2.1
  exact h3 (by simp only [taf_level] at h; omega)

/-- No position before the result of `taf_level` holds `id`. -/
theorem taf_level_first (order : List Nat) (lev id j : Nat) (h : j < taf_level order lev id) :
    order.getD j 0 ≠ id :=
  (taf_level_loop_spec order id (lev + 1) 0).2.2.2 j (Nat.zero_le j) h

/-- The atom is found at a level `<= lev` exactly when it occurs in `order[0..lev]`. -/
theorem taf_level_le_iff (order : List Nat) (lev id : Nat) (hlev : lev < order.length) :
    taf_level order lev id ≤ lev ↔ id ∈ order.take (lev + 1) := by
  constructor
  · intro h
    have hg := taf_level_get order lev id h
    have hlt : taf_level order lev id < order.length := by omega
    rw [List.getD_eq_getElem order 0 hlt] at hg
    exact List.mem_take_iff_getElem.mpr
      ⟨taf_level order lev id, by simp only [lt_min_iff]; omega, hg⟩
  · intro h
    obtain ⟨j, hj, hjid⟩ := List.mem_take_iff_getElem.mp h
    by_contra hcon
    have hj2 : j < order.length := (lt_min_iff.mp hj).2
    have := taf_level_first order lev id j (by have := (lt_min_iff.mp hj).1; omega)
    rw [List.getD_eq_getElem order 0 hj2] at this
    exact this hjid

/-- In an order without repeats, `taf_level` is the position `indexOf` of a found atom. -/
theorem taf_level_eq_indexOf (order : List Nat) (lev id : Nat) (hnd : order.Nodup)
    (hlev : lev < order.length) (h : taf_level order lev id ≤ lev) :
    taf_level order lev id = order.indexOf id := by
  have hg := taf_level_get order lev id h
  have hlt : taf_level order lev id < order.length := by omega
  rw [List.getD_eq_getElem order 0 hlt] at hg
  have := List.indexOf_getElem hnd (taf_level order lev id) hlt
  rw [hg] at this
  exact this.symm

/-! ## C2: which entries `taf_init` registers at a level -/

/-- The two tests of the loop body of `taf_init` pass exactly under the registration
condition of the specification. -/
theorem taf_matches_iff {K : Type} (order : List Nat) (lev : Nat) (d : peptide_dihed_t K)
    (hlev : lev < order.length) :
    taf_matches order lev d = true ↔
      (¬(order.getD lev 0 ≠ d.atom_id 0 ∧ order.getD lev 0 ≠ d.atom_id 1 ∧
          order.getD lev 0 ≠ d.atom_id 2 ∧ order.getD lev 0 ≠ d.atom_id 3) ∧
        ¬(taf_level order lev (d.atom_id 0) > lev ∨ taf_level order lev (d.atom_id 1) > lev ∨
          taf_level order lev (d.atom_id 2) > lev ∨ taf_level order lev (d.atom_id 3) > lev)) := by
  have e : ∀ k : Fin 4, d.atom_id k ∈ order.take (lev + 1) ↔
      taf_level order lev (d.atom_id k) ≤ lev :=
    fun k => (taf_level_le_iff order lev (d.atom_id k) hlev).symm
  simp only [taf_matches, decide_eq_true_eq, e, Fin.exists_fin_succ, Fin.forall_fin_succ,
    Fin.succ_zero_eq_one, Fin.succ_one_eq_two, IsEmpty.exists_iff, IsEmpty.forall_iff,
    or_false, and_true, gt_iff_lt, not_or, not_lt, ne_eq]
  have e3 : (Fin.succ 2 : Fin 4) = 3 := rfl
  rw [e3]
  tauto

/-- When every allocation succeeds the loop of `taf_init` returns 1 and appends, in array
order, one closure for each remaining entry that meets the registration condition. -/
theorem taf_init_loop_ok {K : Type} [LinearOrderedField K] (m : Libm K)
    (value_scal : value_t K → Dbl K → value_t K) (h : Heap) (arrp : dihed_ref) (lev : Nat)
    (hh : ∀ i, h.malloc i = true ∧ h.add_closure i = true)
    (arr : List (peptide_dihed_t K)) :
    ∀ (i : Nat) (E : enum_t K), lev < E.G.order.length →
      taf_init_loop m value_scal h arrp lev (E.G.order.getD lev 0) i arr E =
        (1, { E with prune := E.prune ++ taf_closures m value_scal arrp E.G.order lev arr }) := by
  unfold taf_closures
  induction arr with
  | nil => intro i E _; simp [taf_init_loop]
  | cons d rest ih =>
    intro i E hlev
    have hm := taf_matches_iff E.G.order lev d hlev
    by_cases h1 : (E.G.order.getD lev 0 ≠ d.atom_id 0 ∧ E.G.order.getD lev 0 ≠ d.atom_id 1 ∧
        E.G.order.getD lev 0 ≠ d.atom_id 2 ∧ E.G.order.getD lev 0 ≠ d.atom_id 3)
    · have hf : taf_matches E.G.order lev d = false := by
        rw [← Bool.not_eq_true, hm]; exact fun hc => hc.1 h1
      rw [taf_init_loop, if_pos h1, ih (i + 1) E hlev, List.filter_cons, hf]
      simp
    · by_cases h2 : (taf_level E.G.order lev (d.atom_id 0) > lev ∨
          taf_level E.G.order lev (d.atom_id 1) > lev ∨
          taf_level E.G.order lev (d.atom_id 2) > lev ∨
          taf_level E.G.order lev (d.atom_id 3) > lev)
      · have hf : taf_matches E.G.order lev d = false := by
          rw [← Bool.not_eq_true, hm]; exact fun hc => hc.2 h2
        rw [taf_init_loop, if_neg h1]
        simp only [if_pos h2]
        rw [ih (i + 1) E hlev, List.filter_cons, hf]
        simp
      · have ht : taf_matches E.G.order lev d = true := hm.mpr ⟨h1, h2⟩
        rw [taf_init_loop, if_neg h1]
        simp only [if_neg h2, (hh i).1, (hh i).2, enum_prune_add_closure, if_true,
          Bool.true_eq_false, if_false]
        have hi := ih (i + 1) { E with prune := E.prune ++
          [(lev, taf_payload m value_scal arrp E.G.order lev d)] } hlev
        simp only [] at hi
        rw [hi, List.filter_cons, ht]
        simp

/-- C2. For every order, level `lev` within it and dihedral array, when allocation
succeeds `taf_init` returns 1 and adds to the registry, in array order, one closure for
each array entry for which `order[lev]` is one of its four atoms and all four atoms occur
in `order[0..lev]`; the other entries register nothing. -/
theorem taf_init_registers_iff {K : Type} [LinearOrderedField K] (m : Libm K)
    (value_scal : value_t K → Dbl K → value_t K) (h : Heap) (E : enum_t K)
    (arrp : dihed_ref) (arr : List (peptide_dihed_t K)) (lev : Nat)
    (hlev : lev < E.G.order.length)
    (hh : ∀ i, h.malloc i = true ∧ h.add_closure i = true) :
    taf_init m value_scal h E arrp arr lev =
      (1, { E with prune := E.prune ++ taf_closures m value_scal arrp E.G.order lev arr }) ∧
    taf_closures m value_scal arrp E.G.order lev arr =
      (arr.filter (taf_matches E.G.order lev)).map
        (fun d => (lev, taf_payload m value_scal arrp E.G.order lev d)) ∧
    ∀ d : peptide_dihed_t K, taf_matches E.G.order lev d = true ↔
      ((∃ k : Fin 4, E.G.order.getD lev 0 = d.atom_id k) ∧
        ∀ k : Fin 4, d.atom_id k ∈ E.G.order.take (lev + 1)) :=
  ⟨taf_init_loop_ok m value_scal h arrp lev hh arr 0 E hlev, rfl,
    fun _ => decide_eq_true_iff⟩

/-! ## C3: one registration per dihedral over the descent -/

/-- A statement over the four atom slots is the conjunction of its four instances. -/
theorem fin4_forall (P : Fin 4 → Prop) : (∀ k, P k) ↔ P 0 ∧ P 1 ∧ P 2 ∧ P 3 := by
  have e3 : (Fin.succ 2 : Fin 4) = 3 := rfl
  simp only [Fin.forall_fin_succ, Fin.succ_zero_eq_one, Fin.succ_one_eq_two,
    IsEmpty.forall_iff, and_true, e3]

/-- Existence over the four atom slots is the disjunction of the four instances. -/
theorem fin4_exists (P : Fin 4 → Prop) : (∃ k, P k) ↔ P 0 ∨ P 1 ∨ P 2 ∨ P 3 := by
  have e3 : (Fin.succ 2 : Fin 4) = 3 := rfl
  simp only [Fin.exists_fin_succ, Fin.succ_zero_eq_one, Fin.succ_one_eq_two,
    IsEmpty.exists_iff, or_false, e3]

/-- In an order without repeats, an atom occurs in `order[0..lev]` exactly when it occurs
in the order at a position at most `lev`. -/
theorem mem_take_iff_indexOf_le (order : List Nat) (hnd : order.Nodup) (lev a : Nat) :
    a ∈ order.take (lev + 1) ↔ a ∈ order ∧ order.indexOf a ≤ lev := by
  constructor
  · intro h
    obtain ⟨j, hj, hja⟩ := List.mem_take_iff_getElem.mp h
    have hj2 : j < order.length := (lt_min_iff.mp hj).2
    have hi := List.indexOf_getElem hnd j hj2
    rw [hja] at hi
    refine ⟨List.mem_of_mem_take h, ?_⟩
    have := (lt_min_iff.mp hj).1
    omega
  · rintro ⟨hmem, hle⟩
    have hlt : order.indexOf a < order.length := List.indexOf_lt_length.mpr hmem
    exact List.mem_take_iff_getElem.mpr
      ⟨order.indexOf a, by simp only [lt_min_iff]; omega, List.getElem_indexOf hlt⟩

/-- In an order without repeats, `order[lev]` is the atom exactly when the atom occurs in
the order at position `lev`. -/
theorem getD_eq_iff_indexOf (order : List Nat) (hnd : order.Nodup) (lev a : Nat)
    (hlev : lev < order.length) :
    order.getD lev 0 = a ↔ a ∈ order ∧ order.indexOf a = lev := by
  rw [List.getD_eq_getElem order 0 hlev]
  constructor
  · intro h
    have hi := List.indexOf_getElem hnd lev hlev
    rw [h] at hi
    exact ⟨h ▸ List.getElem_mem hlev, hi⟩
  · rintro ⟨hmem, hi⟩
    have hlt : order.indexOf a < order.length := List.indexOf_lt_length.mpr hmem
    have := List.getElem_indexOf hlt
    simp only [hi] at this
    exact this

/-- In an order without repeats the registration condition holds at level `lev` exactly
when all four atoms occur in the order and `lev` is their largest position. -/
theorem taf_matches_eq_maxpos {K : Type} (order : List Nat) (hnd : order.Nodup) (lev : Nat)
    (hlev : lev < order.length) (d : peptide_dihed_t K) :
    taf_matches order lev d = (taf_complete order d && decide (taf_maxpos order d = lev)) := by
  rw [Bool.eq_iff_iff]
  simp only [taf_matches, taf_complete, taf_maxpos, Bool.and_eq_true, decide_eq_true_eq,
    mem_take_iff_indexOf_le order hnd lev, getD_eq_iff_indexOf order hnd lev _ hlev]
  rw [fin4_forall, fin4_forall, fin4_exists]
  constructor
  · rintro ⟨hex, ⟨m0, l0⟩, ⟨m1, l1⟩, ⟨m2, l2⟩, ⟨m3, l3⟩⟩
    refine ⟨⟨m0, m1, m2, m3⟩, ?_⟩
    rcases hex with ⟨_, e⟩ | ⟨_, e⟩ | ⟨_, e⟩ | ⟨_, e⟩ <;> omega
  · rintro ⟨⟨m0, m1, m2, m3⟩, hmax⟩
    refine ⟨?_, ⟨m0, by omega⟩, ⟨m1, by omega⟩, ⟨m2, by omega⟩, ⟨m3, by omega⟩⟩
    have : order.indexOf (d.atom_id 0) = lev ∨ order.indexOf (d.atom_id 1) = lev ∨
        order.indexOf (d.atom_id 2) = lev ∨ order.indexOf (d.atom_id 3) = lev := by omega
    rcases this with e | e | e | e
    · exact Or.inl ⟨m0, e⟩
    · exact Or.inr (Or.inl ⟨m1, e⟩)
    · exact Or.inr (Or.inr (Or.inl ⟨m2, e⟩))
    · exact Or.inr (Or.inr (Or.inr ⟨m3, e⟩))

/-- The largest position of a dihedral whose atoms all occur in the order is a level of
the descent. -/
theorem taf_maxpos_lt {K : Type} (order : List Nat) (d : peptide_dihed_t K)
    (hc : taf_complete order d = true) : taf_maxpos order d < order.length := by
  simp only [taf_complete, decide_eq_true_eq] at hc
  rw [fin4_forall] at hc
  obtain ⟨m0, m1, m2, m3⟩ := hc
  have h0 := List.indexOf_lt_length.mpr m0
  have h1 := List.indexOf_lt_length.mpr m1
  have h2 := List.indexOf_lt_length.mpr m2
  have h3 := List.indexOf_lt_length.mpr m3
  simp only [taf_maxpos]
  omega

/-- When every allocation succeeds, the descent through the first `n` levels appends the
closures of the specification level by level. -/
theorem taf_descent_eq {K : Type} [LinearOrderedField K] (m : Libm K)
    (value_scal : value_t K → Dbl K → value_t K) (h : Heap) (arrp : dihed_ref)
    (arr : List (peptide_dihed_t K)) (E : enum_t K)
    (hh : ∀ i, h.malloc i = true ∧ h.add_closure i = true) (n : Nat)
    (hn : n ≤ E.G.order.length) :
    taf_descent m value_scal h arrp arr n E =
      { E with prune := E.prune ++ (List.range n).flatMap
                          (fun lev => taf_closures m value_scal arrp E.G.order lev arr) } := by
  induction n with
  | zero => simp [taf_descent]
  | succ n ih =>
    have ih1 := ih (by omega)
    rw [taf_descent, taf_init, ih1]
    have hl := taf_init_loop_ok m value_scal h arrp n hh arr 0
      { E with prune := E.prune ++ (List.range n).flatMap
                          (fun lev => taf_closures m value_scal arrp E.G.order lev arr) } (by simpa using hn)
    simp only [] at hl
    rw [hl]
    simp [List.range_succ, List.flatMap_append]

/-- Two disjoint filters count together what the filter of their disjunction counts. -/
theorem filter_length_split {α : Type} (p q r : α → Bool) (l : List α)
    (hr : ∀ a, r a = (p a || q a)) (hd : ∀ a, p a = true → q a = false) :
    (l.filter p).length + (l.filter q).length = (l.filter r).length := by
  induction l with
  | nil => rfl
  | cons a l ih =>
    have h1 := hr a
    have h2 := hd a
    cases hp : p a <;> cases hq : q a <;> simp_all [List.filter_cons] <;> omega

/-- The closures of the first `n` levels are as many as the dihedrals whose atoms all
occur in the order with largest position below `n`. -/
theorem taf_closures_count {K : Type} [LinearOrderedField K] (m : Libm K)
    (value_scal : value_t K → Dbl K → value_t K) (arrp : dihed_ref)
    (arr : List (peptide_dihed_t K)) (order : List Nat) (hnd : order.Nodup) (n : Nat)
    (hn : n ≤ order.length) :
    ((List.range n).flatMap (fun lev => taf_closures m value_scal arrp order lev arr)).length =
      (arr.filter (fun d => taf_complete order d && decide (taf_maxpos order d < n))).length := by
  induction n with
  | zero => simp
  | succ n ih =>
    rw [List.range_succ, List.flatMap_append, List.length_append, ih (by omega)]
    simp only [List.flatMap_cons, List.flatMap_nil, List.append_nil, taf_closures,
      List.length_map]
    have e : taf_matches order n =
        fun d : peptide_dihed_t K => (taf_complete order d && decide (taf_maxpos order d = n)) :=
      funext fun d => taf_matches_eq_maxpos order hnd n (by omega) d
    rw [e]
    apply filter_length_split
    · intro d
      cases taf_complete order d
      · simp
      · simp only [Bool.true_and, ← Bool.decide_or]
        exact decide_eq_decide.mpr (by omega)
    · intro d hd
      simp only [Bool.and_eq_true, decide_eq_true_eq] at hd
      simp only [Bool.and_eq_false_imp, decide_eq_false_iff_not]
      intro _
      omega

/-- Exactly one level below `n` equals a given level `c < n`. -/
theorem range_filter_eq (c n : Nat) (hc : c < n) :
    (List.range n).filter (fun lev => decide (c = lev)) = [c] := by
  induction n with
  | zero => omega
  | succ n ih =>
    rw [List.range_succ, List.filter_append]
    by_cases h : c = n
    · subst h
      have : (List.range c).filter (fun lev => decide (c = lev)) = [] := by
        rw [List.filter_eq_nil_iff]
        intro a ha
        have := List.mem_range.mp ha
        simp; omega
      rw [this]; simp
    · rw [ih (by omega)]
      simp [List.filter_cons, h]

/-- C3. For an order without repeated atom ids, calling `taf_init` once at each level
`0 .. n_order - 1` (allocation succeeding) adds to the registry, level by level and in
array order, one closure for each dihedral whose four atoms all occur in the order, at the
level equal to the largest order position of its atoms: the closures added are as many as
those dihedrals, each such dihedral meets the registration condition at exactly that one
level, and a dihedral with an atom missing from the order meets it at no level. -/
theorem taf_descent_registers_once {K : Type} [LinearOrderedField K] (m : Libm K)
    (value_scal : value_t K → Dbl K → value_t K) (h : Heap) (arrp : dihed_ref)
    (arr : List (peptide_dihed_t K)) (E : enum_t K) (hnd : E.G.order.Nodup)
    (hh : ∀ i, h.malloc i = true ∧ h.add_closure i = true) :
    (taf_descent m value_scal h arrp arr E.G.order.length E).prune =
        E.prune ++ (List.range E.G.order.length).flatMap (fun lev =>
          (arr.filter (fun d =>
            taf_complete E.G.order d && decide (taf_maxpos E.G.order d = lev))).map
              (fun d => (lev, taf_payload m value_scal arrp E.G.order lev d))) ∧
    (taf_descent m value_scal h arrp arr E.G.order.length E).prune.length =
        E.prune.length + (arr.filter (taf_complete E.G.order)).length ∧
    ∀ d : peptide_dihed_t K,
      (taf_complete E.G.order d = true →
        taf_maxpos E.G.order d < E.G.order.length ∧
        (List.range E.G.order.length).filter (fun lev => taf_matches E.G.order lev d) =
          [taf_maxpos E.G.order d]) ∧
      (taf_complete E.G.order d = false →
        ∀ lev, lev < E.G.order.length → taf_matches E.G.order lev d = false) := by
  have hd := taf_descent_eq m value_scal h arrp arr E hh E.G.order.length (le_refl _)
  refine ⟨?_, ?_, fun d => ⟨fun hc => ⟨taf_maxpos_lt E.G.order d hc, ?_⟩, fun hc lev hlev => ?_⟩⟩
  · rw [hd]
    simp only []
    congr 1
    apply List.flatMap_congr
    intro lev hlev
    have e : taf_matches E.G.order lev = fun d : peptide_dihed_t K =>
        (taf_complete E.G.order d && decide (taf_maxpos E.G.order d = lev)) :=
      funext fun d => taf_matches_eq_maxpos E.G.order hnd lev (List.mem_range.mp hlev) d
    rw [taf_closures, e]
  · rw [hd]
    simp only [List.length_append]
    rw [taf_closures_count m value_scal arrp arr E.G.order hnd E.G.order.length (le_refl _)]
    congr 2
    apply List.filter_congr
    intro d _
    cases hc : taf_complete E.G.order d
    · simp
    · simp [taf_maxpos_lt E.G.order d hc]
  · rw [← range_filter_eq (taf_maxpos E.G.order d) E.G.order.length
      (taf_maxpos_lt E.G.order d hc)]
    apply List.filter_congr
    intro lev hlev
    rw [taf_matches_eq_maxpos E.G.order hnd lev (List.mem_range.mp hlev) d, hc]
    simp
  · rw [taf_matches_eq_maxpos E.G.order hnd lev hlev d, hc]
    simp

/-! ## C4: the offsets stored in a payload -/

/-- Membership in the closures of a level. -/
theorem taf_closures_mem {K : Type} [LinearOrderedField K] (m : Libm K)
    (value_scal : value_t K → Dbl K → value_t K) (arrp : dihed_ref) (order : List Nat)
    (lev : Nat) (arr : List (peptide_dihed_t K)) (c : Nat × enum_prune_taf_t K) :
    c ∈ taf_closures m value_scal arrp order lev arr ↔
      ∃ d ∈ arr, taf_matches order lev d = true ∧
        c = (lev, taf_payload m value_scal arrp order lev d) := by
  simp only [taf_closures, List.mem_map, List.mem_filter]
  constructor
  · rintro ⟨d, ⟨hd, hm⟩, rfl⟩
    exact ⟨d, hd, hm, rfl⟩
  · rintro ⟨d, hd, hm, rfl⟩
    exact ⟨d, ⟨hd, hm⟩, rfl⟩

/-- Whatever the allocator does, the loop of `taf_init` only appends closures of the
specification for its level. -/
theorem taf_init_loop_appends {K : Type} [LinearOrderedField K] (m : Libm K)
    (value_scal : value_t K → Dbl K → value_t K) (h : Heap) (arrp : dihed_ref) (lev : Nat)
    (arr : List (peptide_dihed_t K)) :
    ∀ (i : Nat) (E : enum_t K), lev < E.G.order.length →
      ∃ l : List (Nat × enum_prune_taf_t K),
        (∀ c ∈ l, c ∈ taf_closures m value_scal arrp E.G.order lev arr) ∧
        (taf_init_loop m value_scal h arrp lev (E.G.order.getD lev 0) i arr E).2 =
          { E with prune := E.prune ++ l } := by
  induction arr with
  | nil => intro i E _; exact ⟨[], by simp, by simp [taf_init_loop]⟩
  | cons d rest ih =>
    intro i E hlev
    have hsub : ∀ c, c ∈ taf_closures m value_scal arrp E.G.order lev rest →
        c ∈ taf_closures m value_scal arrp E.G.order lev (d :: rest) := by
      intro c hc
      rw [taf_closures_mem] at hc ⊢
      obtain ⟨d1, hd1, hm1, rfl⟩ := hc
      exact ⟨d1, List.mem_cons_of_mem d hd1, hm1, rfl⟩
    have hm := taf_matches_iff E.G.order lev d hlev
    by_cases h1 : (E.G.order.getD lev 0 ≠ d.atom_id 0 ∧ E.G.order.getD lev 0 ≠ d.atom_id 1 ∧
        E.G.order.getD lev 0 ≠ d.atom_id 2 ∧ E.G.order.getD lev 0 ≠ d.atom_id 3)
    · obtain ⟨l, hl1, hl2⟩ := ih (i + 1) E hlev
      refine ⟨l, fun c hc => hsub c (hl1 c hc), ?_⟩
      rw [taf_init_loop, if_pos h1, hl2]
    · by_cases h2 : (taf_level E.G.order lev (d.atom_id 0) > lev ∨
          taf_level E.G.order lev (d.atom_id 1) > lev ∨
          taf_level E.G.order lev (d.atom_id 2) > lev ∨
          taf_level E.G.order lev (d.atom_id 3) > lev)
      · obtain ⟨l, hl1, hl2⟩ := ih (i + 1) E hlev
        refine ⟨l, fun c hc => hsub c (hl1 c hc), ?_⟩
        rw [taf_init_loop, if_neg h1]
        simp only [if_pos h2]
        rw [hl2]
      · have ht : taf_matches E.G.order lev d = true := hm.mpr ⟨h1, h2⟩
        rw [taf_init_loop, if_neg h1]
        simp only [if_neg h2]
        cases hma : h.malloc i
        · exact ⟨[], by simp, by simp⟩
        · cases had : h.add_closure i
          · exact ⟨[], by simp, by simp [enum_prune_add_closure]⟩
          · obtain ⟨l, hl1, hl2⟩ := ih (i + 1) { E with prune := E.prune ++
              [(lev, taf_payload m value_scal arrp E.G.order lev d)] } hlev
            simp only [] at hl1 hl2
            refine ⟨(lev, taf_payload m value_scal arrp E.G.order lev d) :: l, ?_, ?_⟩
            · intro c hc
              rcases List.mem_cons.mp hc with rfl | hc
              · exact (taf_closures_mem m value_scal arrp E.G.order lev (d :: rest) _).mpr
                  ⟨d, List.mem_cons_self d rest, ht, rfl⟩
              · exact hsub c (hl1 c hc)
            · simp only [enum_prune_add_closure, if_true, Bool.true_eq_false, if_false]
              rw [hl2]
              simp

/-- Unsigned subtraction does not wrap when the subtrahend is at most the minuend. -/
theorem usub_eq_sub (a b : Nat) (ha : a < u32) (hb : b ≤ a) : usub a b = a - b := by
  simp only [usub, u32] at *
  omega

/-- The offsets of the payload built at level `lev` for a dihedral that meets the
registration condition, and what is read through them at level `lev`. -/
theorem taf_payload_reads {K : Type} [LinearOrderedField K] (m : Libm K)
    (value_scal : value_t K → Dbl K → value_t K) (arrp : dihed_ref) (E : enum_t K)
    (lev : Nat) (d : peptide_dihed_t K) (hlev : lev < E.G.order.length) (hu : lev < u32)
    (hm : taf_matches E.G.order lev d = true) (k : Fin 4) :
    taf_level E.G.order lev (d.atom_id k) ≤ lev ∧
    (taf_payload m value_scal arrp E.G.order lev d).n k =
      lev - taf_level E.G.order lev (d.atom_id k) ∧
    (taf_payload m value_scal arrp E.G.order lev d).n k ≤ lev ∧
    E.G.order.getD (lev - (taf_payload m value_scal arrp E.G.order lev d).n k) 0 =
      d.atom_id k ∧
    (∀ th : enum_thread_t K, th.level = lev →
      taf_state_index th (taf_payload m value_scal arrp E.G.order lev d) k =
          taf_level E.G.order lev (d.atom_id k) ∧
        E.G.order.getD
          (taf_state_index th (taf_payload m value_scal arrp E.G.order lev d) k) 0 =
          d.atom_id k) ∧
    taf_report_atoms E lev (taf_payload m value_scal arrp E.G.order lev d) k = d.atom_id k := by
  have hall : ∀ k : Fin 4, d.atom_id k ∈ E.G.order.take (lev + 1) := by
    simp only [taf_matches, decide_eq_true_eq] at hm
    exact hm.2
  have hle : taf_level E.G.order lev (d.atom_id k) ≤ lev :=
    (taf_level_le_iff E.G.order lev (d.atom_id k) hlev).mpr (hall k)
  have hg := taf_level_get E.G.order lev (d.atom_id k) hle
  have hn : (taf_payload m value_scal arrp E.G.order lev d).n k =
      lev - taf_level E.G.order lev (d.atom_id k) := usub_eq_sub lev _ hu hle
  have hback : lev - (lev - taf_level E.G.order lev (d.atom_id k)) =
      taf_level E.G.order lev (d.atom_id k) := by omega
  have hidx : usub lev ((taf_payload m value_scal arrp E.G.order lev d).n k) =
      taf_level E.G.order lev (d.atom_id k) := by
    rw [hn, usub_eq_sub lev _ hu (by omega), hback]
  refine ⟨hle, hn, by rw [hn]; omega, by rw [hn, hback]; exact hg, ?_, ?_⟩
  · intro th hth
    rw [taf_state_index, hth, hidx]
    exact ⟨rfl, hg⟩
  · rw [taf_report_atoms, hidx]
    exact hg

/-- C2 at level 3 of the order 0, 1, 2, 3, 4: of the two entries, the one over the atoms
0, 1, 2, 3 registers and the one holding the absent atom 7 does not. -/
theorem taf_init_registers_iff_witness :
    3 < enum5.G.order.length ∧
    (∀ i, heapOk.malloc i = true ∧ heapOk.add_closure i = true) ∧
    taf_init approxLibm value_scal heapOk enum5 dihed_ref.torsions [dihed0123, dihed0127] 3 =
      (1, { enum5 with prune := enum5.prune ++ taf_closures approxLibm value_scal
                                 dihed_ref.torsions enum5.G.order 3 [dihed0123, dihed0127] }) ∧
    taf_closures approxLibm value_scal dihed_ref.torsions enum5.G.order 3
        [dihed0123, dihed0127] =
      ([dihed0123, dihed0127].filter (taf_matches enum5.G.order 3)).map
        (fun d => (3, taf_payload approxLibm value_scal dihed_ref.torsions enum5.G.order 3 d)) ∧
    ∀ d : peptide_dihed_t ℚ, taf_matches enum5.G.order 3 d = true ↔
      ((∃ k : Fin 4, enum5.G.order.getD 3 0 = d.atom_id k) ∧
        ∀ k : Fin 4, d.atom_id k ∈ enum5.G.order.take (3 + 1)) :=
  ⟨by decide, fun _ => ⟨rfl, rfl⟩,
    taf_init_registers_iff approxLibm value_scal heapOk enum5 dihed_ref.torsions
      [dihed0123, dihed0127] 3 (by decide) (fun _ => ⟨rfl, rfl⟩)⟩

/-- C3 on the order 0, 1, 2, 3, 4 with two dihedrals, one of them over an atom that the
order does not hold: the descent registers one closure. -/
theorem taf_descent_registers_once_witness :
    enum5.G.order.Nodup ∧
    (∀ i, heapOk.malloc i = true ∧ heapOk.add_closure i = true) ∧
    (taf_descent approxLibm value_scal heapOk dihed_ref.torsions [dihed0123, dihed0127]
        enum5.G.order.length enum5).prune.length =
      enum5.prune.length + ([dihed0123, dihed0127].filter (taf_complete enum5.G.order)).length ∧
    ([dihed0123, dihed0127].filter (taf_complete enum5.G.order)).length = 1 ∧
    (List.range enum5.G.order.length).filter (fun lev => taf_matches enum5.G.order lev dihed0123) =
      [taf_maxpos enum5.G.order dihed0123] ∧
    taf_maxpos enum5.G.order dihed0123 = 3 :=
  ⟨by decide, fun _ => ⟨rfl, rfl⟩,
    (taf_descent_registers_once approxLibm value_scal heapOk dihed_ref.torsions
      [dihed0123, dihed0127] enum5 (by decide) (fun _ => ⟨rfl, rfl⟩)).2.1,
    by decide,
    ((taf_descent_registers_once approxLibm value_scal heapOk dihed_ref.torsions
      [dihed0123, dihed0127] enum5 (by decide) (fun _ => ⟨rfl, rfl⟩)).2.2 dihed0123).1
        (by decide) |>.2,
    by decide⟩

/-! ## C10: reads of a closure applied below its registration level -/

/-- C10 fails as stated: the closure registered at level 3 of the order 0, 1, 2, 3, 4 for
the atoms 0, 1, 2, 3, applied at thread level 4, reads slot 0 at state index 1, which
holds atom 1 and not atom 0. -/
theorem taf_read_below_level_counterexample :
    ¬ (∀ c ∈ (taf_init approxLibm value_scal heapOk enum5 dihed_ref.torsions
          [dihed0123] 3).2.prune,
        ∀ L, 3 ≤ L → L < enum5.G.order.length → ∀ k : Fin 4,
          enum5.G.order.getD
            (taf_state_index { level := L, state := state4 } c.2 k) 0 =
            dihed0123.atom_id k) := by
  intro H
  have h := H (3, taf_payload approxLibm value_scal dihed_ref.torsions enum5.G.order 3
    dihed0123) (by simp [taf_init, taf_init_loop, enum5, dihed0123, taf_level,
      taf_level_loop, heapOk, enum_prune_add_closure]) 4 (by decide) (by decide) 0
  revert h
  decide

/-- C10 as amended. For a closure registered at level `lev` for a dihedral `d` and
applied at a thread level `L >= lev`, the state index read for slot `k` is the level of
atom `d.atom_id k` shifted by `L - lev`; at `L = lev` the order holds `d.atom_id k`
there, and in an order without repeats at any `L > lev` within the order it holds
another atom. -/
theorem taf_state_index_shift {K : Type} [LinearOrderedField K] (m : Libm K)
    (value_scal : value_t K → Dbl K → value_t K) (h : Heap) (E : enum_t K)
    (arrp : dihed_ref) (arr : List (peptide_dihed_t K)) (lev : Nat)
    (hlev : lev < E.G.order.length) (L : Nat) (hL : lev ≤ L) (hu : L < u32)
    (st : List (enum_thread_node K)) :
    ∃ l : List (Nat × enum_prune_taf_t K),
      (taf_init m value_scal h E arrp arr lev).2.prune = E.prune ++ l ∧
      ((∀ i, h.malloc i = true ∧ h.add_closure i = true) →
        l = taf_closures m value_scal arrp E.G.order lev arr) ∧
      ∀ c ∈ l, ∃ d ∈ arr, ∀ k : Fin 4,
        taf_state_index { level := L, state := st } c.2 k =
          taf_level E.G.order lev (d.atom_id k) + (L - lev) ∧
        (L = lev →
          E.G.order.getD (taf_state_index { level := L, state := st } c.2 k) 0 =
            d.atom_id k) ∧
        (E.G.order.Nodup → lev < L → L < E.G.order.length →
          E.G.order.getD (taf_state_index { level := L, state := st } c.2 k) 0 ≠
            d.atom_id k) := by
  obtain ⟨l, hl1, hl2⟩ := taf_init_loop_appends m value_scal h arrp lev arr 0 E hlev
  refine ⟨l, by rw [taf_init, hl2], fun hh => ?_, fun c hc => ?_⟩
  · have hok := taf_init_loop_ok m value_scal h arrp lev hh arr 0 E hlev
    rw [hok] at hl2
    have := congrArg enum_t.prune hl2
    simp only [] at this
    exact (List.append_cancel_left this).symm
  · obtain ⟨d, hd, hm, rfl⟩ := (taf_closures_mem m value_scal arrp E.G.order lev arr c).mp
      (hl1 c hc)
    refine ⟨d, hd, fun k => ?_⟩
    obtain ⟨hle, hn, _, _, _, _⟩ :=
      taf_payload_reads m value_scal arrp E lev d hlev (by omega) hm k
    have hg := taf_level_get E.G.order lev (d.atom_id k) hle
    have hidx : taf_state_index { level := L, state := st }
        (taf_payload m value_scal arrp E.G.order lev d) k =
        taf_level E.G.order lev (d.atom_id k) + (L - lev) := by
      simp only [taf_state_index]
      rw [hn, usub_eq_sub L _ hu (by omega)]
      omega
    refine ⟨hidx, fun hLl => ?_, fun hnd hlt hLlen => ?_⟩
    · rw [hidx, hLl, Nat.sub_self, Nat.add_zero]
      subst hLl
      exact hg
    · rw [hidx]
      have h1 : taf_level E.G.order lev (d.atom_id k) < E.G.order.length := by omega
      have h2 : taf_level E.G.order lev (d.atom_id k) + (L - lev) < E.G.order.length := by
        omega
      rw [List.getD_eq_getElem E.G.order 0 h1] at hg
      rw [List.getD_eq_getElem E.G.order 0 h2]
      intro heq
      have := (hnd.getElem_inj_iff).mp (heq.trans hg.symm)
      omega

/-- C10 as amended, at the closure registered at level 3 of the order 0, 1, 2, 3, 4 and
applied at thread level 4. -/
theorem taf_state_index_shift_witness :
    3 < enum5.G.order.length ∧ 3 ≤ 4 ∧ 4 < u32 ∧
    ∃ l : List (Nat × enum_prune_taf_t ℚ),
      (taf_init approxLibm value_scal heapOk enum5 dihed_ref.torsions [dihed0123] 3).2.prune =
        enum5.prune ++ l ∧
      ((∀ i, heapOk.malloc i = true ∧ heapOk.add_closure i = true) →
        l = taf_closures approxLibm value_scal dihed_ref.torsions enum5.G.order 3 [dihed0123]) ∧
      ∀ c ∈ l, ∃ d ∈ [dihed0123], ∀ k : Fin 4,
        taf_state_index { level := 4, state := state4 } c.2 k =
          taf_level enum5.G.order 3 (d.atom_id k) + (4 - 3) ∧
        (4 = 3 →
          enum5.G.order.getD (taf_state_index { level := 4, state := state4 } c.2 k) 0 =
            d.atom_id k) ∧
        (enum5.G.order.Nodup → 3 < 4 → 4 < enum5.G.order.length →
          enum5.G.order.getD (taf_state_index { level := 4, state := state4 } c.2 k) 0 ≠
            d.atom_id k) :=
  ⟨by decide, by decide, by decide,
    taf_state_index_shift approxLibm value_scal heapOk enum5 dihed_ref.torsions [dihed0123] 3
      (by decide) 4 (by decide) (by decide) state4⟩

/-! ## C5: `vector_normalize` has no failure path -/

/-- C5 fails as stated: the zero vector has length 0, below `1/1000`, for which the
specified operation fails with `DegenerateVector`; the code returns the componentwise
quotient `0 / 0`, the vector of three NaN. -/
theorem vector_normalize_zero_counterexample :
    vector_len approxLibm (vec 0 0 0) = Dbl.fin 0 ∧
    vector_normalize_spec approxLibm (1 / 1000) (vec 0 0 0) =
      Except.error ErrorKind.DegenerateVector ∧
    vector_normalize approxLibm (vec 0 0 0) = { x := Dbl.nan, y := Dbl.nan, z := Dbl.nan } ∧
    Except.ok (vector_normalize approxLibm (vec 0 0 0)) ≠
      vector_normalize_spec approxLibm (1 / 1000) (vec 0 0 0) := by
  have hlen : vector_len approxLibm (vec 0 0 0) = Dbl.fin 0 := by
    simp [vector_len, vec, approxLibm]
  have hn : vector_normalize approxLibm (vec 0 0 0) =
      { x := Dbl.nan, y := Dbl.nan, z := Dbl.nan } := by
    simp only [vector_normalize, hlen]
    simp [vec]
  have hs : vector_normalize_spec approxLibm (1 / 1000) (vec 0 0 0) =
      Except.error ErrorKind.DegenerateVector := by
    simp [vector_normalize_spec, hlen]
  refine ⟨hlen, hs, hn, ?_⟩
  rw [hs]
  intro h
  cases h

/-- C5 as amended. `vector_normalize` never fails and has no threshold: for a vector
`(x, y, z)` of computed length `len` it returns `(x/len, y/len, z/len)` when `len` is
not zero and three NaN for the zero vector; this is the value of the specified operation
when `len` is not below `eps`, and differs from its `DegenerateVector` failure when
`len` is below `eps`. -/
theorem vector_normalize_total {K : Type} [LinearOrderedField K] (m : Libm K) (eps : K)
    (x y z len : K) (hlen : vector_len m (vec x y z) = Dbl.fin len) :
    (len ≠ 0 → vector_normalize m (vec x y z) = vec (x / len) (y / len) (z / len)) ∧
    (len = 0 → x = 0 → y = 0 → z = 0 →
      vector_normalize m (vec x y z) = { x := Dbl.nan, y := Dbl.nan, z := Dbl.nan }) ∧
    (eps ≤ len →
      vector_normalize_spec m eps (vec x y z) = Except.ok (vector_normalize m (vec x y z))) ∧
    (len < eps →
      vector_normalize_spec m eps (vec x y z) = Except.error ErrorKind.DegenerateVector ∧
      Except.ok (vector_normalize m (vec x y z)) ≠ vector_normalize_spec m eps (vec x y z)) := by
  refine ⟨fun h0 => ?_, fun h0 _ _ _ => ?_, fun he => ?_, fun he => ?_⟩
  · simp only [vector_normalize, hlen]
    simp [vec, h0]
  · simp only [vector_normalize, hlen]
    simp [vec, h0]
  · simp [vector_normalize_spec, hlen, not_lt.mpr he]
  · have hs : vector_normalize_spec m eps (vec x y z) =
        Except.error ErrorKind.DegenerateVector := by
      simp [vector_normalize_spec, hlen, he]
    refine ⟨hs, ?_⟩
    rw [hs]
    intro h
    cases h

/-- C5 as amended, at the unit vector `(1, 0, 0)`, whose computed length is 1. -/
theorem vector_normalize_total_witness :
    vector_len approxLibm (vec 1 0 0) = Dbl.fin 1 ∧
    (((1 : ℚ) ≠ 0 → vector_normalize approxLibm (vec 1 0 0) =
        vec ((1 : ℚ) / 1) ((0 : ℚ) / 1) ((0 : ℚ) / 1)) ∧
      ((1 : ℚ) = 0 → (1 : ℚ) = 0 → (0 : ℚ) = 0 → (0 : ℚ) = 0 →
        vector_normalize approxLibm (vec 1 0 0) =
          { x := Dbl.nan, y := Dbl.nan, z := Dbl.nan }) ∧
      ((1 / 1000 : ℚ) ≤ 1 →
        vector_normalize_spec approxLibm (1 / 1000) (vec 1 0 0) =
          Except.ok (vector_normalize approxLibm (vec 1 0 0))) ∧
      ((1 : ℚ) < 1 / 1000 →
        vector_normalize_spec approxLibm (1 / 1000) (vec 1 0 0) =
          Except.error ErrorKind.DegenerateVector ∧
        Except.ok (vector_normalize approxLibm (vec 1 0 0)) ≠
          vector_normalize_spec approxLibm (1 / 1000) (vec 1 0 0))) :=
  ⟨by simp [vector_len, vec, approxLibm],
    vector_normalize_total approxLibm (1 / 1000) 1 0 0 1
      (by simp [vector_len, vec, approxLibm])⟩

/-! ## C6: the index width loop of `dmdgp_write` -/

/-- One iteration of the width loop when its condition holds. -/
theorem dmdgp_fmt_loop_step (N fuel n i : Nat) (h : i ≤ N) :
    dmdgp_fmt_loop N (fuel + 1) n i = dmdgp_fmt_loop N fuel (uadd n 1) (umul i 10) := by
  rw [dmdgp_fmt_loop, if_pos h]

/-- The width loop exits with `n_fmt` when its condition fails. -/
theorem dmdgp_fmt_loop_exit (N fuel n i : Nat) (h : N < i) :
    dmdgp_fmt_loop N (fuel + 1) n i = some n := by
  rw [dmdgp_fmt_loop, if_neg (by omega)]

/-- While the powers of ten stay at most `N`, `j <= 9` iterations lead from `(1, 1)` to
`(j + 1, 10^j)`: below `10^10` the multiplication does not wrap. -/
theorem dmdgp_fmt_loop_pow (N : Nat) (j : Nat) (hj : j ≤ 9) (fuel : Nat)
    (h : ∀ t, t < j → 10 ^ t ≤ N) :
    dmdgp_fmt_loop N (fuel + j) 1 1 = dmdgp_fmt_loop N fuel (j + 1) (10 ^ j) := by
  induction j generalizing fuel with
  | zero => simp
  | succ j ih =>
    have e : fuel + (j + 1) = (fuel + 1) + j := by omega
    rw [e, ih (by omega) (fuel + 1) (fun t ht => h t (by omega)),
      dmdgp_fmt_loop_step N fuel (j + 1) (10 ^ j) (h j (by omega))]
    have h1 : (10 : Nat) ^ (j + 1) ≤ 10 ^ 9 := Nat.pow_le_pow_right (by norm_num) hj
    have h2 : uadd (j + 1) 1 = j + 1 + 1 := by
      simp only [uadd, u32]; omega
    have h3 : umul (10 ^ j) 10 = 10 ^ (j + 1) := by
      simp only [umul, u32, pow_succ] at *
      omega
    rw [h2, h3]

/-- For every atom count below `1410065408 = 10^10 mod 2^32` the width loop exits, within
eleven tests, with `n_fmt = clog 10 (N + 1) + 1`. -/
theorem dmdgp_n_fmt_small (N fuel : Nat) (hN : N < 1410065408) (hf : 11 ≤ fuel) :
    dmdgp_n_fmt fuel N = some (Nat.clog 10 (N + 1) + 1) := by
  have hb : (1 : Nat) < 10 := by norm_num
  by_cases h9 : N < 10 ^ 9
  · have hc : Nat.clog 10 (N + 1) ≤ 9 := (Nat.le_pow_iff_clog_le hb).mp (by omega)
    have hpow : ∀ t, t < Nat.clog 10 (N + 1) → 10 ^ t ≤ N := fun t ht => by
      have := (Nat.pow_lt_iff_lt_clog hb).mpr ht
      omega
    have hlt : N < 10 ^ Nat.clog 10 (N + 1) := by
      have := (Nat.le_pow_iff_clog_le hb).mpr (le_refl (Nat.clog 10 (N + 1)))
      omega
    obtain ⟨f, rfl⟩ : ∃ f, fuel = (f + 1) + Nat.clog 10 (N + 1) :=
      ⟨fuel - 1 - Nat.clog 10 (N + 1), by omega⟩
    rw [dmdgp_n_fmt, dmdgp_fmt_loop_pow N _ hc (f + 1) hpow, dmdgp_fmt_loop_exit N f _ _ hlt]
  · have hc1 : Nat.clog 10 (N + 1) ≤ 10 :=
      (Nat.le_pow_iff_clog_le hb).mp (by norm_num; omega)
    have hc2 : 9 < Nat.clog 10 (N + 1) := (Nat.pow_lt_iff_lt_clog hb).mp (by omega)
    have hc : Nat.clog 10 (N + 1) = 10 := by omega
    have hpow : ∀ t, t < 9 → 10 ^ t ≤ N := fun t ht => by
      have : (10 : Nat) ^ t ≤ 10 ^ 9 := Nat.pow_le_pow_right (by norm_num) (by omega)
      omega
    obtain ⟨f, rfl⟩ : ∃ f, fuel = (f + 2) + 9 := ⟨fuel - 11, by omega⟩
    rw [dmdgp_n_fmt, dmdgp_fmt_loop_pow N 9 (le_refl 9) (f + 2) hpow,
      dmdgp_fmt_loop_step N (f + 1) _ _ (by omega)]
    have h3 : umul (10 ^ 9) 10 = 1410065408 := by norm_num [umul, u32]
    have h2 : uadd (9 + 1) 1 = 11 := by norm_num [uadd, u32]
    rw [h2, h3, dmdgp_fmt_loop_exit N f _ _ hN, hc]

/-- With `n_atoms = 4294967295` the condition `i_fmt <= n_atoms` holds for every value of
`i_fmt`, so the loop never exits. -/
theorem dmdgp_fmt_loop_max (fuel n i : Nat) (hi : i ≤ 4294967295) :
    dmdgp_fmt_loop 4294967295 fuel n i = none := by
  induction fuel generalizing n i with
  | zero => rfl
  | succ fuel ih =>
    rw [dmdgp_fmt_loop_step 4294967295 fuel n i hi]
    apply ih
    simp only [umul, u32]
    omega

/-- C6 at its failing inputs. For `n_atoms = 1410065408` the loop exits with width 13,
not `clog 10 (N + 1) + 1 = 11` (eleven is also the digit count of N plus one): `i_fmt`
wraps to `10^10 mod 2^32 = 1410065408`, which is not above N.  For
`n_atoms = 4294967295` the loop does not exit, whatever the number of tests allowed. -/
theorem dmdgp_n_fmt_overflow :
    dmdgp_n_fmt 13 1410065408 = some 13 ∧
    Nat.clog 10 (1410065408 + 1) + 1 = 11 ∧
    (Nat.digits 10 1410065408).length + 1 = 11 ∧
    ∀ fuel, dmdgp_n_fmt fuel 4294967295 = none := by
  refine ⟨by decide, ?_, by norm_num, fun fuel => dmdgp_fmt_loop_max fuel 1 1 (by norm_num)⟩
  have h1 : Nat.clog 10 (1410065408 + 1) ≤ 10 :=
    (Nat.le_pow_iff_clog_le (by norm_num)).mp (by norm_num)
  have h2 : 9 < Nat.clog 10 (1410065408 + 1) :=
    (Nat.pow_lt_iff_lt_clog (by norm_num)).mp (by norm_num)
  omega

/-! ## C7: the blocks of the dihedral section -/

/-- The `D` loops write, in array order, the entries whose angle is not an interval. -/
theorem dihed_exact_loop_eq {K : Type} (l : List (peptide_dihed_t K))
    (hid : ∀ t ∈ l, ∀ k : Fin 4, t.atom_id k + 1 < u32) :
    dihed_exact_loop l = (l.filter (fun t => !value_is_interval t.ang)).map dihed_D_line := by
  induction l with
  | nil => rfl
  | cons t rest ih =>
    have ih1 := ih (fun t1 h1 => hid t1 (List.mem_cons_of_mem t h1))
    have e : ∀ k : Fin 4, uadd (t.atom_id k) 1 = t.atom_id k + 1 := fun k => by
      have := hid t (List.mem_cons_self t rest) k
      simp only [uadd, u32] at *
      omega
    cases hv : value_is_interval t.ang
    · simp [dihed_exact_loop, hv, ih1, List.filter_cons, dihed_D_line, e]
    · simp [dihed_exact_loop, hv, ih1, List.filter_cons]

/-- The `I` loops write, in array order, the entries whose angle is not a scalar. -/
theorem dihed_interval_loop_eq {K : Type} (l : List (peptide_dihed_t K))
    (hid : ∀ t ∈ l, ∀ k : Fin 4, t.atom_id k + 1 < u32) :
    dihed_interval_loop l = (l.filter (fun t => !value_is_scalar t.ang)).map dihed_I_line := by
  induction l with
  | nil => rfl
  | cons t rest ih =>
    have ih1 := ih (fun t1 h1 => hid t1 (List.mem_cons_of_mem t h1))
    have e : ∀ k : Fin 4, uadd (t.atom_id k) 1 = t.atom_id k + 1 := fun k => by
      have := hid t (List.mem_cons_self t rest) k
      simp only [uadd, u32] at *
      omega
    cases hv : value_is_scalar t.ang
    · simp [dihed_interval_loop, hv, ih1, List.filter_cons, dihed_I_line, e]
    · simp [dihed_interval_loop, hv, ih1, List.filter_cons]

/-- When no angle is undefined, "not an interval" selects the scalars and "not a scalar"
selects the intervals. -/
theorem filter_defined {K : Type} (l : List (peptide_dihed_t K))
    (hdef : ∀ t ∈ l, t.ang.type ≠ value_type_t.VALUE_TYPE_UNDEFINED) :
    l.filter (fun t => !value_is_interval t.ang) = l.filter (fun t => value_is_scalar t.ang) ∧
    l.filter (fun t => !value_is_scalar t.ang) =
      l.filter (fun t => value_is_interval t.ang) := by
  constructor <;>
  · apply List.filter_congr
    intro t ht
    have := hdef t ht
    simp only [value_is_interval, value_is_scalar]
    cases h : t.ang.type <;> simp_all

/-- For a peptide none of whose dihedral angles is undefined, `dmdgp_write_dihedrals`
writes the four blocks of the specification. -/
theorem dmdgp_write_dihedrals_defined {K : Type} (P : peptide_t K)
    (hid : ∀ t ∈ P.torsions ++ P.impropers, ∀ k : Fin 4, t.atom_id k + 1 < u32)
    (hdef : ∀ t ∈ P.torsions ++ P.impropers,
      t.ang.type ≠ value_type_t.VALUE_TYPE_UNDEFINED) :
    dmdgp_write_dihedrals P = dihed_section_spec P := by
  have ht := fun t (h : t ∈ P.torsions) => hid t (List.mem_append_left _ h)
  have hi := fun t (h : t ∈ P.impropers) => hid t (List.mem_append_right _ h)
  have dt := filter_defined P.torsions (fun t h => hdef t (List.mem_append_left _ h))
  have di := filter_defined P.impropers (fun t h => hdef t (List.mem_append_right _ h))
  rw [dmdgp_write_dihedrals, dihed_section_spec, dihed_exact_loop_eq P.torsions ht,
    dihed_exact_loop_eq P.impropers hi, dihed_interval_loop_eq P.torsions ht,
    dihed_interval_loop_eq P.impropers hi, dt.1, dt.2, di.1, di.2]

/-- C7 at its failing input. The torsion with an undefined angle is neither exact nor
interval, so the section of the specification holds no line for it; the code passes it
through both skip tests and writes it as a `D` line among the exact torsions and again as
an `I` line among the interval torsions. -/
theorem dmdgp_write_dihedrals_undefined :
    dmdgp_write_dihedrals peptideUndef =
      [dmdgp_line.count "dihedrals" 1, dmdgp_line.count "impropers" 0,
       dmdgp_line.begin_section "dihedral_angles",
       dmdgp_line.dihed_exact 1 2 3 4 (Dbl.fin 0),
       dmdgp_line.dihed_interval 1 2 3 4 (Dbl.fin 0) (Dbl.fin 0),
       dmdgp_line.end_section "dihedral_angles"] ∧
    dihed_section_spec peptideUndef =
      [dmdgp_line.count "dihedrals" 1, dmdgp_line.count "impropers" 0,
       dmdgp_line.begin_section "dihedral_angles",
       dmdgp_line.end_section "dihedral_angles"] ∧
    dmdgp_write_dihedrals peptideUndef ≠ dihed_section_spec peptideUndef := by
  have h1 : dmdgp_write_dihedrals peptideUndef =
      [dmdgp_line.count "dihedrals" 1, dmdgp_line.count "impropers" 0,
       dmdgp_line.begin_section "dihedral_angles",
       dmdgp_line.dihed_exact 1 2 3 4 (Dbl.fin 0),
       dmdgp_line.dihed_interval 1 2 3 4 (Dbl.fin 0) (Dbl.fin 0),
       dmdgp_line.end_section "dihedral_angles"] := by
    simp [dmdgp_write_dihedrals, peptideUndef, dihed_exact_loop, dihed_interval_loop,
      value_is_interval, value_is_scalar, uadd, u32]
  have h2 : dihed_section_spec peptideUndef =
      [dmdgp_line.count "dihedrals" 1, dmdgp_line.count "impropers" 0,
       dmdgp_line.begin_section "dihedral_angles",
       dmdgp_line.end_section "dihedral_angles"] := by
    simp [dihed_section_spec, peptideUndef, value_is_interval, value_is_scalar]
  refine ⟨h1, h2, ?_⟩
  rw [h1, h2]
  intro h
  have := congrArg List.length h
  simp at this

/-! ## C8: the edge lines -/

/-- Membership in the list of pairs. -/
theorem edge_pairs_mem (nv i j : Nat) : (i, j) ∈ edge_pairs nv ↔ i < j ∧ j < nv := by
  simp only [edge_pairs, List.mem_flatMap, List.mem_range, List.mem_map, List.mem_range'_1,
    Prod.mk.injEq]
  constructor
  · rintro ⟨a, ha, b, ⟨hb1, hb2⟩, rfl, rfl⟩
    omega
  · rintro ⟨h1, h2⟩
    exact ⟨i, by omega, j, ⟨by omega, by omega⟩, rfl, rfl⟩

/-- The pairs are listed in strictly increasing lexicographic order. -/
theorem edge_pairs_sorted (nv : Nat) :
    (edge_pairs nv).Pairwise (fun p q => p.1 < q.1 ∨ (p.1 = q.1 ∧ p.2 < q.2)) := by
  rw [edge_pairs, List.pairwise_flatMap]
  constructor
  · intro i _
    rw [List.pairwise_map]
    exact (List.pairwise_lt_range' (i + 1) (nv - (i + 1))).imp (fun h => Or.inr ⟨rfl, h⟩)
  · refine (List.pairwise_lt_range nv).imp ?_
    intro a b hab x hx y hy
    obtain ⟨_, _, rfl⟩ := List.mem_map.mp hx
    obtain ⟨_, _, rfl⟩ := List.mem_map.mp hy
    exact Or.inl hab

/-- A vertex count whose square is within `unsigned int` range is far below the range. -/
theorem nv_succ_lt (nv : Nat) (h : nv * nv ≤ u32) : nv + 1 < u32 := by
  by_contra hc
  have h1 : u32 - 1 ≤ nv := by omega
  have h2 : (u32 - 1) * (u32 - 1) ≤ nv * nv := Nat.mul_le_mul h1 h1
  have h3 : u32 < (u32 - 1) * (u32 - 1) := by norm_num [u32]
  omega

/-- Within a table of `nv * nv <= 2^32` entries the body of the inner loop writes the
line of the specification for the pair, if any. -/
theorem dmdgp_edge_body_eq {K : Type}
    (graph_has_edge : graph_t K → Nat → Nat → value_type_t) (code3 : Nat → String)
    (P : peptide_t K) (G : graph_t K) (hnv : G.nv * G.nv ≤ u32) (i j : Nat)
    (hij : i < j) (hj : j < G.nv) :
    dmdgp_edge_body graph_has_edge code3 P G i j =
      (edge_line graph_has_edge code3 P G (i, j)).toList := by
  have hjj : G.nv * j + G.nv ≤ G.nv * G.nv := by
    have : G.nv * (j + 1) ≤ G.nv * G.nv := Nat.mul_le_mul_left _ (by omega)
    rw [Nat.mul_add, Nat.mul_one] at this
    exact this
  have hnn := nv_succ_lt G.nv hnv
  have e1 : uadd i 1 = i + 1 := by
    simp only [uadd, u32] at *; omega
  have e2 : uadd j 1 = j + 1 := by
    simp only [uadd, u32] at *; omega
  have e3 : uadd i (umul G.nv j) = i + G.nv * j := by
    have hm : umul G.nv j = G.nv * j := by
      simp only [umul, u32] at *
      exact Nat.mod_eq_of_lt (by omega)
    rw [hm]
    simp only [uadd, u32] at *
    exact Nat.mod_eq_of_lt (by omega)
  simp only [dmdgp_edge_body, edge_line, e1, e2, e3]
  cases graph_has_edge G i j <;> simp

/-- A loop body that writes at most one item per element is a `filterMap`. -/
theorem flatMap_toList {α β : Type} (l : List α) (f : α → Option β) (g : α → List β)
    (h : ∀ a ∈ l, g a = (f a).toList) : l.flatMap g = l.filterMap f := by
  induction l with
  | nil => rfl
  | cons a l ih =>
    rw [List.flatMap_cons, h a (List.mem_cons_self a l),
      ih (fun b hb => h b (List.mem_cons_of_mem a hb))]
    cases hf : f a <;> simp [List.filterMap_cons, hf]

/-- Within range: for a graph whose `nv * nv` table is within `unsigned int` range,
`dmdgp_write_edges` writes, between the two counts and `begin edges` and the closing
`end edges`, one line for each pair `i < j < nv` taken in lexicographic order whose edge
kind is exact (`i+1 j+1 D d`) or interval (`i+1 j+1 I l u`), with the values of
`E[i + nv * j]`, and none for an undefined edge; the pairs are exactly those with
`i < j < nv`, strictly increasing, so none is met twice, in either orientation. -/
theorem dmdgp_write_edges_lines {K : Type} (graph_count_edges : graph_t K → Nat × Nat)
    (graph_has_edge : graph_t K → Nat → Nat → value_type_t) (code3 : Nat → String)
    (P : peptide_t K) (G : graph_t K) (hnv : G.nv * G.nv ≤ u32) :
    dmdgp_write_edges graph_count_edges graph_has_edge code3 P G =
      [dmdgp_line.count "exact edges" (graph_count_edges G).1,
       dmdgp_line.count "interval edges" (graph_count_edges G).2,
       dmdgp_line.begin_section "edges"] ++
      (edge_pairs G.nv).filterMap (edge_line graph_has_edge code3 P G) ++
      [dmdgp_line.end_section "edges"] ∧
    (∀ i j, (i, j) ∈ edge_pairs G.nv ↔ i < j ∧ j < G.nv) ∧
    (edge_pairs G.nv).Pairwise (fun p q => p.1 < q.1 ∨ (p.1 = q.1 ∧ p.2 < q.2)) ∧
    (edge_pairs G.nv).Nodup ∧
    ∀ i j, (i, j) ∈ edge_pairs G.nv → (j, i) ∉ edge_pairs G.nv := by
  refine ⟨?_, edge_pairs_mem G.nv, edge_pairs_sorted G.nv, ?_, ?_⟩
  · rw [dmdgp_write_edges, edge_pairs, List.filterMap_flatMap]
    congr 2
    apply List.flatMap_congr
    intro i hi
    have hi1 := List.mem_range.mp hi
    have hnn := nv_succ_lt G.nv hnv
    have e1 : uadd i 1 = i + 1 := by
      simp only [uadd, u32] at *; omega
    rw [e1, List.filterMap_map]
    apply flatMap_toList
    intro j hj
    have hj1 := List.mem_range'_1.mp hj
    exact dmdgp_edge_body_eq graph_has_edge code3 P G hnv i j (by omega) (by omega)
  · refine (edge_pairs_sorted G.nv).imp ?_
    intro p q hpq heq
    subst heq
    omega
  · intro i j h1 h2
    have := (edge_pairs_mem G.nv i j).mp h1
    have := (edge_pairs_mem G.nv j i).mp h2
    omega

/-! ## C9: the header lines -/

/-- The loop of the header over a concatenation. -/
theorem header_loop_append (k n : Nat) (l1 l2 : List header_piece) :
    ∀ i, i + l1.length < u32 →
      header_loop k n i (l1 ++ l2) =
        header_loop k n i l1 ++ header_loop k n (i + l1.length) l2 := by
  induction l1 with
  | nil => intro i _; simp [header_loop]
  | cons c cs ih =>
    intro i hi
    have e : uadd i 1 = i + 1 := by
      simp only [uadd, u32, List.length_cons] at *; omega
    have ih1 := ih (i + 1) (by simp only [List.length_cons] at hi; omega)
    have e2 : i + 1 + cs.length = i + (cs.length + 1) := by omega
    rw [e2] at ih1
    rw [List.cons_append, header_loop, header_loop, e, ih1, List.length_cons]
    simp

/-- The loop of the header writes no continuation over a stretch of indices none of which
ends a full line before the last item. -/
theorem header_loop_plain (k n : Nat) (hn : 1 ≤ n) (hu : n < u32) (l : List header_piece) :
    ∀ i, i + l.length ≤ n →
      (∀ j, i ≤ j → j < i + l.length → ¬((j + 1) % k = 0 ∧ j + 1 < n)) →
      header_loop k n i l = l := by
  induction l with
  | nil => intro i _ _; rfl
  | cons c cs ih =>
    intro i hi hno
    simp only [List.length_cons] at hi hno
    have e : uadd i 1 = i + 1 := by
      simp only [uadd, u32] at *; omega
    have e1 : usub n 1 = n - 1 := usub_eq_sub n 1 hu hn
    have hc : ¬((i + 1) % k = 0 ∧ i < n - 1) := fun h =>
      hno i (le_refl i) (by omega) ⟨h.1, by omega⟩
    simp only [header_loop, e, e1, if_neg hc, List.nil_append]
    rw [ih (i + 1) (by omega) (fun j hj1 hj2 => hno j (by omega) (by omega))]

/-- Between two multiples of `k` no index ends a full line. -/
theorem mod_ne_zero_between (k i j : Nat) (hi : i % k = 0) (h1 : i ≤ j) (h2 : j + 1 < i + k) :
    (j + 1) % k ≠ 0 := by
  obtain ⟨q, hq⟩ := Nat.dvd_of_mod_eq_zero hi
  have e : j + 1 = k * q + (j + 1 - i) := by omega
  rw [e, Nat.mul_add_mod, Nat.mod_eq_of_lt (by omega)]
  omega

/-- Over a full line that is not the last, the loop writes the `k` items and then the
continuation. -/
theorem header_loop_full (k n : Nat) (hu : n < u32) (l : List header_piece) (i : Nat)
    (hk : 1 ≤ k) (hl : l.length = k) (hi : i % k = 0) (hin : i + k < n) :
    header_loop k n i l = l ++ [header_piece.cont] := by
  have hne : l ≠ [] := by
    intro h
    rw [h] at hl
    simp at hl
    omega
  have hsplit := List.dropLast_append_getLast hne
  have hdl : l.dropLast.length = k - 1 := by rw [List.length_dropLast, hl]
  have e1 : usub n 1 = n - 1 := usub_eq_sub n 1 hu (by omega)
  have hplain : header_loop k n i l.dropLast = l.dropLast :=
    header_loop_plain k n (by omega) hu l.dropLast i (by omega)
      (fun j hj1 hj2 h => mod_ne_zero_between k i j hi hj1 (by omega) h.1)
  have hlast : header_loop k n (i + (k - 1)) [l.getLast hne] =
      [l.getLast hne, header_piece.cont] := by
    have e : uadd (i + (k - 1)) 1 = i + k := by
      simp only [uadd, u32] at *; omega
    have hm : (i + k) % k = 0 := by rw [Nat.add_mod_right]; exact hi
    have hc : (i + k) % k = 0 ∧ i + (k - 1) < n - 1 := ⟨hm, by omega⟩
    simp only [header_loop, e, e1, if_pos hc, List.append_nil]
  calc header_loop k n i l
      = header_loop k n i (l.dropLast ++ [l.getLast hne]) := by rw [hsplit]
    _ = l.dropLast ++ [l.getLast hne, header_piece.cont] := by
        rw [header_loop_append k n _ _ i (by omega), hplain, hdl, hlast]
    _ = (l.dropLast ++ [l.getLast hne]) ++ [header_piece.cont] := by simp
    _ = l ++ [header_piece.cont] := by rw [hsplit]

/-- The rows are never an empty list of lines. -/
theorem header_rows_aux_cons {α : Type} (k fuel : Nat) (l : List α) :
    ∃ r rs, header_rows_aux k fuel l = r :: rs := by
  cases fuel with
  | zero => exact ⟨l, [], rfl⟩
  | succ fuel =>
    by_cases h : l.length ≤ k
    · exact ⟨l, [], by rw [header_rows_aux, if_pos h]⟩
    · exact ⟨l.take k, header_rows_aux k fuel (l.drop k), by rw [header_rows_aux, if_neg h]⟩

/-- From an index that starts a line, the loop of the header writes the rows of the
remaining items joined by continuations. -/
theorem header_loop_rows (k n : Nat) (hk : 1 ≤ k) (hu : n < u32) :
    ∀ (fuel : Nat) (l : List header_piece) (i : Nat), l.length ≤ fuel → i % k = 0 →
      i + l.length = n → header_loop k n i l = header_join (header_rows_aux k fuel l) := by
  intro fuel
  induction fuel with
  | zero =>
    intro l i hl _ _
    have : l = [] := List.length_eq_zero.mp (by omega)
    subst this
    rfl
  | succ fuel ih =>
    intro l i hl hi hn
    by_cases h : l.length ≤ k
    · rw [header_rows_aux, if_pos h, header_join]
      by_cases hnil : l = []
      · subst hnil; rfl
      · have hpos : 1 ≤ l.length := by
          rcases l with _ | ⟨c, cs⟩
          · exact absurd rfl hnil
          · simp
        exact header_loop_plain k n (by omega) hu l i (by omega)
          (fun j hj1 hj2 hc => mod_ne_zero_between k i j hi hj1 (by omega) hc.1)
    · rw [header_rows_aux, if_neg h]
      obtain ⟨r, rs, hr⟩ := header_rows_aux_cons k fuel (l.drop k)
      have htake : (l.take k).length = k := by rw [List.length_take]; omega
      have hdrop : (l.drop k).length = l.length - k := List.length_drop k l
      have ih1 := ih (l.drop k) (i + k) (by omega) (by rw [Nat.add_mod_right]; exact hi)
        (by omega)
      calc header_loop k n i l
          = header_loop k n i (l.take k ++ l.drop k) := by rw [List.take_append_drop]
        _ = (l.take k ++ [header_piece.cont]) ++ header_loop k n (i + k) (l.drop k) := by
            rw [header_loop_append k n _ _ i (by omega),
              header_loop_full k n hu (l.take k) i hk htake hi (by omega), htake]
        _ = l.take k ++ header_piece.cont :: header_join (header_rows_aux k fuel (l.drop k)) := by
            rw [ih1]; simp
        _ = header_join (l.take k :: header_rows_aux k fuel (l.drop k)) := by
            rw [hr, header_join]

/-- The rows: every line but the last holds exactly `k` items, the last holds at most `k`
and at least one unless there is no item at all, and the lines in order make up the
items. -/
theorem header_rows_aux_spec {α : Type} (k : Nat) (hk : 1 ≤ k) :
    ∀ (fuel : Nat) (l : List α), l.length ≤ fuel →
      ∃ body last, header_rows_aux k fuel l = body ++ [last] ∧
        (∀ r ∈ body, r.length = k) ∧ last.length ≤ k ∧ (l ≠ [] → 1 ≤ last.length) ∧
        body.flatten ++ last = l := by
  intro fuel
  induction fuel with
  | zero =>
    intro l hl
    have : l = [] := List.length_eq_zero.mp (by omega)
    subst this
    exact ⟨[], [], rfl, by simp, by simp, by simp, rfl⟩
  | succ fuel ih =>
    intro l hl
    by_cases h : l.length ≤ k
    · refine ⟨[], l, by rw [header_rows_aux, if_pos h]; rfl, by simp, h, fun hne => ?_, by simp⟩
      rcases l with _ | ⟨c, cs⟩
      · exact absurd rfl hne
      · simp
    · have hdrop : (l.drop k).length = l.length - k := List.length_drop k l
      obtain ⟨body, last, h1, h2, h3, h4, h5⟩ := ih (l.drop k) (by omega)
      have hne : l.drop k ≠ [] := by
        intro hnil
        rw [hnil] at hdrop
        simp at hdrop
        omega
      refine ⟨l.take k :: body, last, by rw [header_rows_aux, if_neg h, h1]; rfl, ?_, h3,
        fun _ => h4 hne, ?_⟩
      · intro r hr
        rcases List.mem_cons.mp hr with rfl | hr
        · rw [List.length_take]; omega
        · exact h2 r hr
      · rw [List.flatten_cons, List.append_assoc, h5, List.take_append_drop]

/-- The pieces `dmdgp_write_header` writes are the lines of its two item lists joined by
continuations, between the fixed texts. -/
theorem dmdgp_write_header_join {K : Type} (code3 : Nat → String) (P : peptide_t K)
    (fname : String) (hres : P.res.length < u32) (hsc : P.sc.length < u32) :
    dmdgp_write_header code3 P fname =
      [header_piece.text ("# " ++ fname ++ "\n"),
       header_piece.text "# automatically generated by ibp-ng\n\n",
       header_piece.text "# sequence:\n",
       header_piece.text "#"] ++
      header_join (header_rows 15 (header_codes code3 P)) ++
      [header_piece.text "\n\n",
       header_piece.text "# explicit sidechains:\n",
       header_piece.text "#"] ++
      header_join (header_rows 5 (header_sidechains code3 P)) ++
      [header_piece.text "\n\n"] := by
  have hc : (header_codes code3 P).length = P.res.length := by simp [header_codes]
  have hs : (header_sidechains code3 P).length = P.sc.length := by simp [header_sidechains]
  rw [dmdgp_write_header,
    header_loop_rows 15 P.res.length (by norm_num) hres (header_codes code3 P).length
      (header_codes code3 P) 0 (le_refl _) rfl (by omega),
    header_loop_rows 5 P.sc.length (by norm_num) hsc (header_sidechains code3 P).length
      (header_sidechains code3 P) 0 (le_refl _) rfl (by omega)]
  rfl

/-- Laying out the images of the items is laying out the items and taking images. -/
theorem header_rows_aux_map {α β : Type} (f : α → β) (k : Nat) :
    ∀ (fuel : Nat) (l : List α),
      header_rows_aux k fuel (l.map f) = (header_rows_aux k fuel l).map (List.map f) := by
  intro fuel
  induction fuel with
  | zero => intro l; rfl
  | succ fuel ih =>
    intro l
    by_cases h : l.length ≤ k
    · rw [header_rows_aux, header_rows_aux, if_pos h, if_pos (by rw [List.length_map]; exact h)]
      rfl
    · rw [header_rows_aux, header_rows_aux, if_neg h,
        if_neg (by rw [List.length_map]; exact h), ← List.map_take, ← List.map_drop, ih]
      rfl

/-- Laying out the images of the items is laying out the items and taking images. -/
theorem header_rows_map {α β : Type} (f : α → β) (k : Nat) (l : List α) :
    header_rows k (l.map f) = (header_rows k l).map (List.map f) := by
  rw [header_rows, header_rows, List.length_map, header_rows_aux_map]

/-- C9. `dmdgp_write_header` writes, after the `#` that opens the sequence, the 3-letter
codes of the residues, in residue order, laid out 15 per line with the continuation
`"\n#"` between consecutive lines, and after the `#` that opens the sidechains the tokens
(code of the residue `sc[i]` and the number `sc[i] + 1`), in array order, laid out 5 per
line likewise.  In each layout every line but the last holds exactly 15 (resp. 5) items,
the last holds at most that many and at least one unless there is no item, the lines in
order make up the list of codes (resp. tokens), and with no item there is the single
empty line, for which nothing is written after the opening `#`. -/
theorem dmdgp_write_header_lines {K : Type} (code3 : Nat → String) (P : peptide_t K)
    (fname : String) (hres : P.res.length < u32) (hsc : P.sc.length < u32) :
    dmdgp_write_header code3 P fname =
      [header_piece.text ("# " ++ fname ++ "\n"),
       header_piece.text "# automatically generated by ibp-ng\n\n",
       header_piece.text "# sequence:\n",
       header_piece.text "#"] ++
      header_join ((header_rows 15 (P.res.map code3)).map (List.map header_piece.code)) ++
      [header_piece.text "\n\n",
       header_piece.text "# explicit sidechains:\n",
       header_piece.text "#"] ++
      header_join ((header_rows 5 (P.sc.map (fun r => (code3 (P.res.getD r 0), uadd r 1)))).map
        (List.map (fun t => header_piece.sidechain t.1 t.2))) ++
      [header_piece.text "\n\n"] ∧
    (∃ body last, header_rows 15 (P.res.map code3) = body ++ [last] ∧
      (∀ r ∈ body, r.length = 15) ∧ last.length ≤ 15 ∧ (P.res ≠ [] → 1 ≤ last.length) ∧
      body.flatten ++ last = P.res.map code3) ∧
    (∃ body last,
      header_rows 5 (P.sc.map (fun r => (code3 (P.res.getD r 0), uadd r 1))) = body ++ [last] ∧
      (∀ r ∈ body, r.length = 5) ∧ last.length ≤ 5 ∧ (P.sc ≠ [] → 1 ≤ last.length) ∧
      body.flatten ++ last = P.sc.map (fun r => (code3 (P.res.getD r 0), uadd r 1))) ∧
    (P.res = [] →
      header_join ((header_rows 15 (P.res.map code3)).map (List.map header_piece.code)) = []) ∧
    (P.sc = [] →
      header_join ((header_rows 5 (P.sc.map (fun r => (code3 (P.res.getD r 0), uadd r 1)))).map
        (List.map (fun t => header_piece.sidechain t.1 t.2))) = []) := by
  have ec : header_codes code3 P = (P.res.map code3).map header_piece.code := by
    simp [header_codes]
  have es : header_sidechains code3 P =
      (P.sc.map (fun r => (code3 (P.res.getD r 0), uadd r 1))).map
        (fun t => header_piece.sidechain t.1 t.2) := by
    simp [header_sidechains]
  refine ⟨?_, ?_, ?_, ?_, ?_⟩
  · rw [dmdgp_write_header_join code3 P fname hres hsc, ec, es,
      header_rows_map header_piece.code,
      header_rows_map (fun t : String × Nat => header_piece.sidechain t.1 t.2)]
  · obtain ⟨body, last, h1, h2, h3, h4, h5⟩ := header_rows_aux_spec 15 (by norm_num)
      (P.res.map code3).length (P.res.map code3) (le_refl _)
    exact ⟨body, last, h1, h2, h3, fun hne => h4 (by simpa using hne), h5⟩
  · obtain ⟨body, last, h1, h2, h3, h4, h5⟩ := header_rows_aux_spec 5 (by norm_num)
      (P.sc.map (fun r => (code3 (P.res.getD r 0), uadd r 1))).length
      (P.sc.map (fun r => (code3 (P.res.getD r 0), uadd r 1))) (le_refl _)
    exact ⟨body, last, h1, h2, h3, fun hne => h4 (by simpa using hne), h5⟩
  · intro h
    simp [h, header_rows, header_rows_aux, header_join]
  · intro h
    simp [h, header_rows, header_rows_aux, header_join]

/-- The layout of the header of `peptideMixed`: sixteen codes on two lines, six tokens on
two lines. -/
theorem dmdgp_write_header_peptideMixed :
    header_rows 15 (peptideMixed.res.map code3Three) =
      [["GLY", "ALA", "SER", "GLY", "ALA", "SER", "GLY", "ALA", "SER", "GLY", "ALA", "SER",
        "GLY", "ALA", "SER"], ["ALA"]] ∧
    header_rows 5 (peptideMixed.sc.map
        (fun r => (code3Three (peptideMixed.res.getD r 0), uadd r 1))) =
      [[("ALA", 2), ("SER", 3), ("ALA", 5), ("SER", 6), ("ALA", 8)], [("ALA", 16)]] := by
  constructor <;> decide

/-- C9 at `peptideMixed`: the pieces written, with the codes and tokens in order. -/
theorem dmdgp_write_header_lines_witness :
    peptideMixed.res.length < u32 ∧ peptideMixed.sc.length < u32 ∧
    dmdgp_write_header code3Three peptideMixed "a.dmdgp" =
      [header_piece.text "# a.dmdgp\n",
       header_piece.text "# automatically generated by ibp-ng\n\n",
       header_piece.text "# sequence:\n",
       header_piece.text "#",
       header_piece.code "GLY", header_piece.code "ALA", header_piece.code "SER",
       header_piece.code "GLY", header_piece.code "ALA", header_piece.code "SER",
       header_piece.code "GLY", header_piece.code "ALA", header_piece.code "SER",
       header_piece.code "GLY", header_piece.code "ALA", header_piece.code "SER",
       header_piece.code "GLY", header_piece.code "ALA", header_piece.code "SER",
       header_piece.cont,
       header_piece.code "ALA",
       header_piece.text "\n\n",
       header_piece.text "# explicit sidechains:\n",
       header_piece.text "#",
       header_piece.sidechain "ALA" 2, header_piece.sidechain "SER" 3,
       header_piece.sidechain "ALA" 5, header_piece.sidechain "SER" 6,
       header_piece.sidechain "ALA" 8,
       header_piece.cont,
       header_piece.sidechain "ALA" 16,
       header_piece.text "\n\n"] :=
  ⟨by decide, by decide,
    (dmdgp_write_header_lines code3Three peptideMixed "a.dmdgp" (by decide) (by decide)).1.trans
      (by decide)⟩

/-- The edge lines of `graph3`: the exact edge (1, 2) and the interval edge (1, 3). -/
theorem dmdgp_write_edges_graph3 :
    dmdgp_write_edges graph_count_edges graph_has_edge code3Gly peptide3 graph3 =
      [dmdgp_line.count "exact edges" 1, dmdgp_line.count "interval edges" 1,
       dmdgp_line.begin_section "edges",
       dmdgp_line.edge_exact 1 2 (Dbl.fin 1) ("GLY", 1, "N") ("GLY", 1, "CA"),
       dmdgp_line.edge_interval 1 3 (Dbl.fin 2) (Dbl.fin 3) ("GLY", 1, "N") ("GLY", 1, "C"),
       dmdgp_line.end_section "edges"] := by
  rfl

/-- The edge lines within range, at `graph3`. -/
theorem dmdgp_write_edges_lines_witness :
    graph3.nv * graph3.nv ≤ u32 ∧
    dmdgp_write_edges graph_count_edges graph_has_edge code3Gly peptide3 graph3 =
      [dmdgp_line.count "exact edges" (graph_count_edges graph3).1,
       dmdgp_line.count "interval edges" (graph_count_edges graph3).2,
       dmdgp_line.begin_section "edges"] ++
      (edge_pairs graph3.nv).filterMap (edge_line graph_has_edge code3Gly peptide3 graph3) ++
      [dmdgp_line.end_section "edges"] ∧
    (edge_pairs graph3.nv).Nodup :=
  ⟨by decide,
    (dmdgp_write_edges_lines graph_count_edges graph_has_edge code3Gly peptide3 graph3
      (by decide)).1,
    (dmdgp_write_edges_lines graph_count_edges graph_has_edge code3Gly peptide3 graph3
      (by decide)).2.2.2.1⟩

/-! ## Positions with number coordinates -/

@[simp] theorem Dbl.atan2_nan_left {K : Type} (m : Libm K) (x : Dbl K) :
    Dbl.atan2 m Dbl.nan x = Dbl.nan := rfl

@[simp] theorem Dbl.atan2_nan_right {K : Type} (m : Libm K) (y : Dbl K) :
    Dbl.atan2 m y Dbl.nan = Dbl.nan := by cases y <;> rfl

section Positions

variable {K : Type} [LinearOrderedField K]

/-- The dihedral is `atan2` of the pair `(x, y)`. -/
theorem taf_omega_eq_atan2 (m : Libm K) (th : enum_thread_t K) (data : enum_prune_taf_t K) :
    taf_omega m th data = Dbl.atan2 m (taf_xy m th data).2 (taf_xy m th data).1 := rfl

/-- The cross product of two vectors of numbers. -/
theorem vector_cross_toVec (a b : V3 K) :
    vector_cross a.toVec b.toVec = (V3.cross a b).toVec := rfl

/-- The dot product of two vectors of numbers. -/
theorem vector_dot_toVec (a b : V3 K) :
    vector_dot a.toVec b.toVec = Dbl.fin (V3.dot a b) := rfl

/-- A sum of three squares is not negative. -/
theorem V3.dot_self_nonneg (a : V3 K) : 0 ≤ V3.dot a a :=
  add_nonneg (add_nonneg (mul_self_nonneg a.x) (mul_self_nonneg a.y)) (mul_self_nonneg a.z)

/-- The computed length of a vector of numbers. -/
theorem vector_len_toVec (m : Libm K) (a : V3 K) :
    vector_len m a.toVec = Dbl.fin (m.sqrt (V3.dot a a)) := by
  have h : ¬ (a.x * a.x + a.y * a.y + a.z * a.z < 0) := not_lt.mpr (V3.dot_self_nonneg a)
  simp [vector_len, V3.toVec, vec, V3.dot, h]

/-- Normalizing a vector of numbers of nonzero computed length divides its coordinates
by that length. -/
theorem vector_normalize_toVec (m : Libm K) (a : V3 K) (h : m.sqrt (V3.dot a a) ≠ 0) :
    vector_normalize m a.toVec = (V3.divs a (m.sqrt (V3.dot a a))).toVec := by
  simp only [vector_normalize, vector_len_toVec]
  simp [V3.toVec, vec, V3.divs, h]

/-- Normalizing the zero vector gives three NaN: each coordinate is `0 / 0`. -/
theorem vector_normalize_zero (m : Libm K) (hs : m.sqrt 0 = 0) :
    vector_normalize m (V3.mk (0 : K) 0 0).toVec =
      { x := Dbl.nan, y := Dbl.nan, z := Dbl.nan } := by
  simp only [vector_normalize, vector_len_toVec]
  simp [V3.toVec, vec, V3.dot, hs]

/-- The pair `(x, y)` in terms of the three bonds, when the four positions read are
vectors of numbers. -/
theorem taf_xy_pos (m : Libm K) (th : enum_thread_t K) (data : enum_prune_taf_t K)
    (p : Fin 4 → V3 K)
    (hp : ∀ k : Fin 4,
      (th.state.getD (taf_state_index th data k) enum_thread_node.undef).pos = (p k).toVec) :
    taf_xy m th data =
      (vector_dot
        (vector_normalize m
          (vector_cross (V3.sub (p 0) (p 1)).toVec (V3.sub (p 1) (p 2)).toVec))
        (vector_normalize m
          (vector_cross (V3.sub (p 1) (p 2)).toVec (V3.sub (p 2) (p 3)).toVec)),
       vector_dot
        (vector_cross
          (vector_normalize m
            (vector_cross (V3.sub (p 0) (p 1)).toVec (V3.sub (p 1) (p 2)).toVec))
          (vector_normalize m (V3.sub (p 1) (p 2)).toVec))
        (vector_normalize m
          (vector_cross (V3.sub (p 1) (p 2)).toVec (V3.sub (p 2) (p 3)).toVec))) := by
  simp only [taf_xy, hp]
  rfl

end Positions

/-! ## C13: degenerate positions -/

/-- When a plane normal or the middle bond is the zero vector, the dihedral computed is
NaN. -/
theorem taf_omega_degenerate {K : Type} [LinearOrderedField K] (m : Libm K)
    (hs : m.sqrt 0 = 0) (th : enum_thread_t K) (data : enum_prune_taf_t K) (p : Fin 4 → V3 K)
    (hp : ∀ k : Fin 4,
      (th.state.getD (taf_state_index th data k) enum_thread_node.undef).pos = (p k).toVec)
    (hdeg : V3.cross (V3.sub (p 0) (p 1)) (V3.sub (p 1) (p 2)) = V3.mk 0 0 0 ∨
      V3.cross (V3.sub (p 1) (p 2)) (V3.sub (p 2) (p 3)) = V3.mk 0 0 0 ∨
      V3.sub (p 1) (p 2) = V3.mk 0 0 0) :
    taf_omega m th data = Dbl.nan := by
  have hz := vector_normalize_zero m hs
  have hb : V3.sub (p 1) (p 2) = V3.mk 0 0 0 →
      V3.cross (V3.sub (p 0) (p 1)) (V3.sub (p 1) (p 2)) = V3.mk 0 0 0 := by
    intro h
    rw [h]
    simp [V3.cross]
  rw [taf_omega_eq_atan2, taf_xy_pos m th data p hp]
  simp only [vector_cross_toVec]
  rcases hdeg with h | h | h
  · rw [h, hz]
    simp [vector_dot, vector_cross]
  · rw [h, hz]
    simp [vector_dot, vector_cross]
  · rw [hb h, hz]
    simp [vector_dot, vector_cross]

/-- C13 fails as stated: for four collinear atoms every normal is the zero vector, the
dihedral computed is NaN, and `enum_prune_taf` returns 0 (keep), not the prune verdict. -/
theorem enum_prune_taf_collinear_counterexample :
    vector_cross (vec (0 - 1) (0 - 0) (0 - 0)) (vec (1 - 2) (0 - 0) (0 - 0)) =
      vec (0 : ℚ) 0 0 ∧
    taf_omega approxLibm threadCollinear payload3 = Dbl.nan ∧
    (enum_prune_taf approxLibm enum5 threadCollinear payload3).1 = 0 ∧
    (enum_prune_taf approxLibm enum5 threadCollinear payload3).1 ≠ 1 := by
  have h : taf_omega approxLibm threadCollinear payload3 = Dbl.nan := by
    simp [taf_omega, taf_state_index, usub, u32, threadCollinear, stateCollinear, payload3,
      vec, vector_normalize, vector_len, vector_cross, vector_dot, approxLibm]
  refine ⟨by simp [vector_cross, vec], h, ?_, ?_⟩ <;> simp [enum_prune_taf, h]

/-- C13 as amended. When the four positions are degenerate, so that a plane normal
`b1 x b2` or `b2 x b3`, or the bond `b2`, is the zero vector, `vector_normalize` yields
NaN coordinates, the dihedral computed is NaN, both comparisons with the bound are false,
and `enum_prune_taf` returns 0 (keep): the test is counted, no prune is counted, the
branch is kept. -/
theorem enum_prune_taf_degenerate_keeps {K : Type} [LinearOrderedField K] (m : Libm K)
    (hs : m.sqrt 0 = 0) (E : enum_t K) (th : enum_thread_t K) (data : enum_prune_taf_t K)
    (p : Fin 4 → V3 K)
    (hp : ∀ k : Fin 4,
      (th.state.getD (taf_state_index th data k) enum_thread_node.undef).pos = (p k).toVec)
    (hdeg : V3.cross (V3.sub (p 0) (p 1)) (V3.sub (p 1) (p 2)) = V3.mk 0 0 0 ∨
      V3.cross (V3.sub (p 1) (p 2)) (V3.sub (p 2) (p 3)) = V3.mk 0 0 0 ∨
      V3.sub (p 1) (p 2) = V3.mk 0 0 0) :
    taf_omega m th data = Dbl.nan ∧
    enum_prune_taf m E th data = (0, { data with ntest := uadd data.ntest 1 }) := by
  have h := taf_omega_degenerate m hs th data p hp hdeg
  refine ⟨h, ?_⟩
  simp [enum_prune_taf, h]

/-- The positions of `stateCollinear` as vectors of numbers. -/
theorem threadCollinear_pos (data : enum_prune_taf_t ℚ) (hn : data.n = ![3, 2, 1, 0])
    (k : Fin 4) :
    (threadCollinear.state.getD (taf_state_index threadCollinear data k)
        enum_thread_node.undef).pos =
      ((![V3.mk 0 0 0, V3.mk 1 0 0, V3.mk 2 0 0, V3.mk 3 0 0] : Fin 4 → V3 ℚ) k).toVec := by
  simp only [taf_state_index, hn]
  fin_cases k <;> rfl

/-- C13 as amended, at four collinear atoms. -/
theorem enum_prune_taf_degenerate_keeps_witness :
    approxLibm.sqrt 0 = 0 ∧
    taf_omega approxLibm threadCollinear payload3 = Dbl.nan ∧
    enum_prune_taf approxLibm enum5 threadCollinear payload3 =
      (0, { payload3 with ntest := uadd payload3.ntest 1 }) :=
  ⟨by simp [approxLibm],
    enum_prune_taf_degenerate_keeps approxLibm (by simp [approxLibm]) enum5 threadCollinear
      payload3 ![V3.mk 0 0 0, V3.mk 1 0 0, V3.mk 2 0 0, V3.mk 3 0 0]
      (threadCollinear_pos payload3 rfl) (Or.inl (by simp [V3.cross, V3.sub]))⟩

/-! ## C11: bounds whose lower end is above the upper end -/

/-- C11 fails as stated: with the wrapped bound `[3, -3]` and tolerance `1/1000`, so that
`l - u > 2 * tol` and `tol >= 0`, the configuration of four collinear atoms is not
pruned: its dihedral is NaN and `enum_prune_taf` returns 0. -/
theorem enum_prune_taf_wrapped_counterexample :
    (3 : ℚ) - (-3) > 2 * (1 / 1000) ∧ (0 : ℚ) ≤ 1 / 1000 ∧
    payloadWrapped.bound.l = Dbl.fin 3 ∧ payloadWrapped.bound.u = Dbl.fin (-3) ∧
    enum5.ddf_tol = Dbl.fin (1 / 1000) ∧
    (enum_prune_taf approxLibm enum5 threadCollinear payloadWrapped).1 = 0 := by
  have h : taf_omega approxLibm threadCollinear payloadWrapped = Dbl.nan := by
    simp [taf_omega, taf_state_index, usub, u32, threadCollinear, stateCollinear,
      payloadWrapped, vec, vector_normalize, vector_len, vector_cross, vector_dot, approxLibm]
  refine ⟨by norm_num, by norm_num, rfl, rfl, rfl, ?_⟩
  simp [enum_prune_taf, h]

/-- C11 as amended. The comparison is linear on the endpoints with no wrap-around: for a
bound `[l, u]` and a tolerance `t` with `l - u > 2 * t`, `enum_prune_taf` returns 1
(prune) for every configuration of the four atoms whose computed dihedral is a number
`w`, whatever `w` is. -/
theorem enum_prune_taf_wrapped_prunes {K : Type} [LinearOrderedField K] (m : Libm K)
    (E : enum_t K) (th : enum_thread_t K) (data : enum_prune_taf_t K) (l u w t : K)
    (hl : data.bound.l = Dbl.fin l) (hu : data.bound.u = Dbl.fin u)
    (ht : E.ddf_tol = Dbl.fin t) (hw : taf_omega m th data = Dbl.fin w)
    (hwrap : l - u > 2 * t) :
    (enum_prune_taf m E th data).1 = 1 := by
  simp only [enum_prune_taf, hl, hu, ht, hw, Dbl.fin_sub_fin, Dbl.gt_fin_fin]
  by_cases h1 : t < l - w
  · simp [h1]
  · have h2 : t < w - u := by linarith [not_lt.mp h1]
    simp [h2]

/-- The dihedral of the four positions of `state4` read through `payloadWrapped`. -/
theorem taf_omega_thread3_wrapped :
    taf_omega approxLibm thread3 payloadWrapped = Dbl.fin (11 / 7) := by
  simp [taf_omega, taf_state_index, usub, u32, thread3, state4, payloadWrapped, vec,
    vector_normalize, vector_len, vector_cross, vector_dot, approxLibm]
  norm_num

/-- C11 as amended, at the right-angle dihedral of `state4` and the wrapped bound
`[3, -3]`. -/
theorem enum_prune_taf_wrapped_prunes_witness :
    taf_omega approxLibm thread3 payloadWrapped = Dbl.fin (11 / 7) ∧
    (3 : ℚ) - (-3) > 2 * (1 / 1000) ∧
    (enum_prune_taf approxLibm enum5 thread3 payloadWrapped).1 = 1 :=
  ⟨taf_omega_thread3_wrapped, by norm_num,
    enum_prune_taf_wrapped_prunes approxLibm enum5 thread3 payloadWrapped 3 (-3) (11 / 7)
      (1 / 1000) rfl rfl rfl taf_omega_thread3_wrapped (by norm_num)⟩

/-! ## C12: the counters of a payload -/

/-- One application of `enum_prune_taf`: the verdict is 0 or 1, the test counter is
incremented, the prune counter is incremented exactly when the verdict is 1, and the
offsets, the bound and the array pointer are unchanged. -/
theorem enum_prune_taf_step {K : Type} [LinearOrderedField K] (m : Libm K) (E : enum_t K)
    (th : enum_thread_t K) (data : enum_prune_taf_t K) :
    ((enum_prune_taf m E th data).1 = 0 ∨ (enum_prune_taf m E th data).1 = 1) ∧
    (enum_prune_taf m E th data).2.ntest = uadd data.ntest 1 ∧
    (enum_prune_taf m E th data).2.nprune =
      (if (enum_prune_taf m E th data).1 = 1 then uadd data.nprune 1 else data.nprune) ∧
    (enum_prune_taf m E th data).2.n = data.n ∧
    (enum_prune_taf m E th data).2.bound = data.bound ∧
    (enum_prune_taf m E th data).2.arr = data.arr := by
  simp only [enum_prune_taf]
  split <;> simp

/-- A sequence of applications without counter wrap-around: the test counter grows by the
number of applications, the prune counter by the number of prune verdicts, and the
offsets, the bound and the array pointer are unchanged. -/
theorem enum_prune_taf_seq_counts {K : Type} [LinearOrderedField K] (m : Libm K)
    (E : enum_t K) (ths : List (enum_thread_t K)) :
    ∀ data : enum_prune_taf_t K, data.nprune ≤ data.ntest →
      data.ntest + ths.length < u32 →
      (enum_prune_taf_seq m E ths data).1.length = ths.length ∧
      (∀ v ∈ (enum_prune_taf_seq m E ths data).1, v = 0 ∨ v = 1) ∧
      (enum_prune_taf_seq m E ths data).2.ntest = data.ntest + ths.length ∧
      (enum_prune_taf_seq m E ths data).2.nprune =
        data.nprune + (enum_prune_taf_seq m E ths data).1.count 1 ∧
      (enum_prune_taf_seq m E ths data).2.n = data.n ∧
      (enum_prune_taf_seq m E ths data).2.bound = data.bound ∧
      (enum_prune_taf_seq m E ths data).2.arr = data.arr := by
  induction ths with
  | nil => intro data _ _; simp [enum_prune_taf_seq]
  | cons th ths ih =>
    intro data hle hlen
    obtain ⟨h01, hnt, hnp, hn, hb, ha⟩ := enum_prune_taf_step m E th data
    simp only [List.length_cons] at hlen
    have hnt1 : (enum_prune_taf m E th data).2.ntest = data.ntest + 1 := by
      rw [hnt]; simp only [uadd, u32] at *; omega
    have hnp1 : (enum_prune_taf m E th data).2.nprune =
        data.nprune + (if (enum_prune_taf m E th data).1 = 1 then 1 else 0) := by
      rw [hnp]
      split
      · simp only [uadd, u32] at *; omega
      · rfl
    have hle1 : (enum_prune_taf m E th data).2.nprune ≤
        (enum_prune_taf m E th data).2.ntest := by
      rw [hnt1, hnp1]; split <;> omega
    obtain ⟨i1, i2, i3, i4, i5, i6, i7⟩ := ih (enum_prune_taf m E th data).2 hle1
      (by rw [hnt1]; omega)
    simp only [enum_prune_taf_seq, List.length_cons, List.mem_cons, List.count_cons]
    refine ⟨by rw [i1], ?_, by rw [i3, hnt1]; omega, ?_, by rw [i5, hn], by rw [i6, hb],
      by rw [i7, ha]⟩
    · rintro v (rfl | hv)
      · exact h01
      · exact i2 v hv
    · rw [i4, hnp1]
      rcases h01 with h | h
      · simp [h]
      · simp [h]; omega

/-- C12. The payload `taf_init` creates has `ntest = nprune = 0`.  Starting from a payload
with zero counters, after any sequence of fewer than `2^32` applications of
`enum_prune_taf` (no counter wrap-around) `ntest` is the number of applications and
`nprune` the number of them that returned 1, hence `nprune <= ntest`; the offsets, the
bound and the array pointer are those of the initial payload; and whenever
`enum_prune_taf_report` reaches its division, `ntest` is not zero and the percentage is a
number. -/
theorem enum_prune_taf_counters {K : Type} [LinearOrderedField K] (m : Libm K) (E : enum_t K)
    (ths : List (enum_thread_t K)) (data : enum_prune_taf_t K)
    (hnt : data.ntest = 0) (hnp : data.nprune = 0) (hlen : ths.length < u32) :
    (∀ (value_scal : value_t K → Dbl K → value_t K) (arrp : dihed_ref) (order : List Nat)
        (lev : Nat) (d : peptide_dihed_t K),
      (taf_payload m value_scal arrp order lev d).ntest = 0 ∧
      (taf_payload m value_scal arrp order lev d).nprune = 0) ∧
    (enum_prune_taf_seq m E ths data).1.length = ths.length ∧
    (enum_prune_taf_seq m E ths data).2.ntest = ths.length ∧
    (enum_prune_taf_seq m E ths data).2.nprune = (enum_prune_taf_seq m E ths data).1.count 1 ∧
    (enum_prune_taf_seq m E ths data).2.nprune ≤ (enum_prune_taf_seq m E ths data).2.ntest ∧
    (enum_prune_taf_seq m E ths data).2.n = data.n ∧
    (enum_prune_taf_seq m E ths data).2.bound = data.bound ∧
    (enum_prune_taf_seq m E ths data).2.arr = data.arr ∧
    ∀ (peptide_get_reschar : peptide_t K → Nat → Char) (arr : dihed_ref) (lev : Nat)
      (line : taf_report_line K),
      enum_prune_taf_report peptide_get_reschar E arr lev (enum_prune_taf_seq m E ths data).2 =
          some line →
        (enum_prune_taf_seq m E ths data).2.ntest ≠ 0 ∧
        line.f = Dbl.fin (((enum_prune_taf_seq m E ths data).2.nprune : K) /
          ((enum_prune_taf_seq m E ths data).2.ntest : K) * 100) := by
  obtain ⟨h1, _, h3, h4, h5, h6, h7⟩ := enum_prune_taf_seq_counts m E ths data
    (by rw [hnt, hnp]) (by rw [hnt]; omega)
  rw [hnt, Nat.zero_add] at h3
  rw [hnp, Nat.zero_add] at h4
  have hle : (enum_prune_taf_seq m E ths data).2.nprune ≤
      (enum_prune_taf_seq m E ths data).2.ntest := by
    rw [h3, h4, ← h1]
    exact List.count_le_length _ _
  refine ⟨fun _ _ _ _ _ => ⟨rfl, rfl⟩, h1, h3, h4, hle, h5, h6, h7, ?_⟩
  intro reschar arr lev line hrep
  simp only [enum_prune_taf_report] at hrep
  split at hrep
  · cases hrep
  · rename_i hc
    have hp : (enum_prune_taf_seq m E ths data).2.nprune ≠ 0 := fun h => hc (Or.inr h)
    have hn0 : (enum_prune_taf_seq m E ths data).2.ntest ≠ 0 := by omega
    have hk : (((enum_prune_taf_seq m E ths data).2.ntest : ℕ) : K) ≠ 0 :=
      Nat.cast_ne_zero.mpr hn0
    refine ⟨hn0, ?_⟩
    have := Option.some.inj hrep
    rw [← this]
    simp [hk]

/-- A NaN dihedral is kept: both comparisons with the bound are false. -/
theorem enum_prune_taf_nan {K : Type} [LinearOrderedField K] (m : Libm K) (E : enum_t K)
    (th : enum_thread_t K) (data : enum_prune_taf_t K) (h : taf_omega m th data = Dbl.nan) :
    enum_prune_taf m E th data = (0, { data with ntest := uadd data.ntest 1 }) := by
  simp [enum_prune_taf, h]

/-- Two applications to the payload `taf_init` creates for `dihed0123` at level 3: the
right-angle dihedral of `state4` is pruned, the collinear one is kept. -/
theorem enum_prune_taf_seq_two :
    (enum_prune_taf_seq approxLibm enum5 [thread3, threadCollinear] payloadInit).1 = [1, 0] := by
  have hn : payloadInit.n = ![3, 2, 1, 0] := by
    funext k
    fin_cases k <;> rfl
  have h1 : taf_omega approxLibm thread3 payloadInit = Dbl.fin (11 / 7) := by
    simp [taf_omega, taf_state_index, hn, usub, u32, thread3, state4, vec, vector_normalize,
      vector_len, vector_cross, vector_dot, approxLibm]
    norm_num
  have h2 : ∀ data : enum_prune_taf_t ℚ, data.n = payloadInit.n →
      taf_omega approxLibm threadCollinear data = Dbl.nan := by
    intro data hd
    simp [taf_omega, taf_state_index, hd, hn, usub, u32, threadCollinear, stateCollinear, vec,
      vector_normalize, vector_len, vector_cross, vector_dot, approxLibm]
  have hb : payloadInit.bound = ⟨value_type_t.VALUE_TYPE_INTERVAL,
      Dbl.fin (-5 * (22 / 7 / 180)), Dbl.fin (5 * (22 / 7 / 180))⟩ := by
    simp [payloadInit, taf_payload, value_scal, dihed0123, approxLibm]
  have e1 : (enum_prune_taf approxLibm enum5 thread3 payloadInit).1 = 1 := by
    simp only [enum_prune_taf, h1, hb, enum5, Dbl.fin_sub_fin, Dbl.gt_fin_fin]
    norm_num
  have e2 : (enum_prune_taf approxLibm enum5 threadCollinear
      (enum_prune_taf approxLibm enum5 thread3 payloadInit).2).1 = 0 := by
    have hk := h2 _ (enum_prune_taf_step approxLibm enum5 thread3 payloadInit).2.2.2.1
    rw [enum_prune_taf_nan approxLibm enum5 threadCollinear _ hk]
  simp only [enum_prune_taf_seq, e1, e2]

/-- C12 at two applications to the payload `taf_init` creates for `dihed0123`. -/
theorem enum_prune_taf_counters_witness :
    payloadInit.ntest = 0 ∧ payloadInit.nprune = 0 ∧
    [thread3, threadCollinear].length < u32 ∧
    (enum_prune_taf_seq approxLibm enum5 [thread3, threadCollinear] payloadInit).2.ntest =
      [thread3, threadCollinear].length ∧
    (enum_prune_taf_seq approxLibm enum5 [thread3, threadCollinear] payloadInit).2.nprune =
      (enum_prune_taf_seq approxLibm enum5 [thread3, threadCollinear] payloadInit).1.count 1 ∧
    (enum_prune_taf_seq approxLibm enum5 [thread3, threadCollinear] payloadInit).2.nprune ≤
      (enum_prune_taf_seq approxLibm enum5 [thread3, threadCollinear] payloadInit).2.ntest :=
  ⟨rfl, rfl, by decide,
    (enum_prune_taf_counters approxLibm enum5 [thread3, threadCollinear] payloadInit
      rfl rfl (by decide)).2.2.1,
    (enum_prune_taf_counters approxLibm enum5 [thread3, threadCollinear] payloadInit
      rfl rfl (by decide)).2.2.2.1,
    (enum_prune_taf_counters approxLibm enum5 [thread3, threadCollinear] payloadInit
      rfl rfl (by decide)).2.2.2.2.1⟩

/-! ## C14: the number of dihedral lines -/

/-- Over one array, the `D` loop and the `I` loop together write one line for each entry
and one more for each entry whose angle is undefined. -/
theorem dihed_loops_length {K : Type} (l : List (peptide_dihed_t K)) :
    (dihed_exact_loop l).length + (dihed_interval_loop l).length =
      l.length + undefined_count l := by
  induction l with
  | nil => rfl
  | cons t rest ih =>
    have hrest : undefined_count (t :: rest) =
        (if t.ang.type = value_type_t.VALUE_TYPE_UNDEFINED then 1 else 0) +
          undefined_count rest := by
      simp only [undefined_count, List.filter_cons]
      split
      · simp_all; omega
      · simp_all
    rw [hrest]
    cases h : t.ang.type <;>
      simp [dihed_exact_loop, dihed_interval_loop, value_is_interval, value_is_scalar, h] <;>
      omega

/-- The lines between `begin dihedral_angles` and `end dihedral_angles` are the four
loops. -/
theorem dmdgp_dihedral_lines_eq {K : Type} (P : peptide_t K) :
    dmdgp_dihedral_lines P =
      dihed_exact_loop P.torsions ++ dihed_exact_loop P.impropers ++
        dihed_interval_loop P.torsions ++ dihed_interval_loop P.impropers := by
  simp [dmdgp_dihedral_lines, dmdgp_write_dihedrals, List.dropLast_append_of_ne_nil]

/-- For every peptide the number of dihedral lines is `n_torsions + n_impropers` plus the
number of torsions and impropers whose angle is undefined. -/
theorem dmdgp_dihedral_lines_length {K : Type} (P : peptide_t K) :
    (dmdgp_dihedral_lines P).length =
      P.torsions.length + P.impropers.length +
        (undefined_count P.torsions + undefined_count P.impropers) := by
  have h1 := dihed_loops_length P.torsions
  have h2 := dihed_loops_length P.impropers
  rw [dmdgp_dihedral_lines_eq]
  simp only [List.length_append]
  omega

/-- C14 at its failing input. The section of `peptideUndef` announces 1 dihedral and 0
impropers and holds two lines between `begin dihedral_angles` and `end dihedral_angles`:
the torsion with the undefined angle is written as a `D` line and again as an `I`
line. -/
theorem dmdgp_dihedral_lines_undefined :
    (dmdgp_write_dihedrals peptideUndef).take 3 =
      [dmdgp_line.count "dihedrals" 1, dmdgp_line.count "impropers" 0,
       dmdgp_line.begin_section "dihedral_angles"] ∧
    dmdgp_dihedral_lines peptideUndef =
      [dmdgp_line.dihed_exact 1 2 3 4 (Dbl.fin 0),
       dmdgp_line.dihed_interval 1 2 3 4 (Dbl.fin 0) (Dbl.fin 0)] ∧
    (dmdgp_dihedral_lines peptideUndef).length = 2 ∧
    peptideUndef.torsions.length + peptideUndef.impropers.length = 1 ∧
    (dmdgp_dihedral_lines peptideUndef).length ≠
      peptideUndef.torsions.length + peptideUndef.impropers.length := by
  have h : dmdgp_dihedral_lines peptideUndef =
      [dmdgp_line.dihed_exact 1 2 3 4 (Dbl.fin 0),
       dmdgp_line.dihed_interval 1 2 3 4 (Dbl.fin 0) (Dbl.fin 0)] := by
    rw [dmdgp_dihedral_lines_eq]
    simp [peptideUndef, dihed_exact_loop, dihed_interval_loop, value_is_interval,
      value_is_scalar, uadd, u32]
  refine ⟨?_, h, by rw [h]; rfl, rfl, ?_⟩
  · simp [dmdgp_write_dihedrals, peptideUndef]
  · rw [h]
    decide

/-! ## C15: the dihedral kernel under a reflection -/

namespace V3

section Algebra

variable {K : Type} [Field K]

/-- The difference of two reflected points is the mirrored difference. -/
theorem sub_reflect (u : V3 K) (c : K) (a b : V3 K) :
    sub (reflect u c a) (reflect u c b) = mirror u (sub a b) := by
  simp only [sub, reflect, mirror, dot, V3.mk.injEq]
  refine ⟨by ring, by ring, by ring⟩

/-- A point of the plane is its own reflection. -/
theorem reflect_of_mem (u : V3 K) (c : K) (a : V3 K) (h : dot u a = c) :
    reflect u c a = a := by
  simp only [reflect, h, sub_self, mul_zero, zero_mul, sub_zero]

/-- Mirroring reverses the cross product: `M a x M b = -(M (a x b))` for a unit normal. -/
theorem cross_mirror (u a b : V3 K) (hu : dot u u = 1) :
    cross (mirror u a) (mirror u b) = neg (mirror u (cross a b)) := by
  simp only [dot] at hu
  simp only [cross, mirror, neg, dot, V3.mk.injEq]
  refine ⟨?_, ?_, ?_⟩
  · linear_combination (-2 * (a.y * b.z - a.z * b.y)) * hu
  · linear_combination (-2 * (a.z * b.x - a.x * b.z)) * hu
  · linear_combination (-2 * (a.x * b.y - a.y * b.x)) * hu

/-- Mirroring preserves the dot product, for a unit normal. -/
theorem dot_mirror (u a b : V3 K) (hu : dot u u = 1) :
    dot (mirror u a) (mirror u b) = dot a b := by
  simp only [dot] at hu
  simp only [mirror, dot]
  linear_combination (4 * (u.x * a.x + u.y * a.y + u.z * a.z) *
    (u.x * b.x + u.y * b.y + u.z * b.z)) * hu

/-- Mirroring commutes with the division by a number. -/
theorem divs_mirror (u a : V3 K) (l : K) : divs (mirror u a) l = mirror u (divs a l) := by
  simp only [divs, mirror, dot, V3.mk.injEq]
  refine ⟨by ring, by ring, by ring⟩

/-- The division by a number of an opposite vector. -/
theorem divs_neg (a : V3 K) (l : K) : divs (neg a) l = neg (divs a l) := by
  simp only [divs, neg, V3.mk.injEq]
  refine ⟨by ring, by ring, by ring⟩

/-- The dot product of two opposite vectors. -/
theorem dot_neg_neg (a b : V3 K) : dot (neg a) (neg b) = dot a b := by
  simp only [dot, neg]
  ring

/-- The dot product with an opposite vector. -/
theorem dot_neg_right (a b : V3 K) : dot a (neg b) = -dot a b := by
  simp only [dot, neg]
  ring

/-- The cross product of an opposite vector. -/
theorem cross_neg_left (a b : V3 K) : cross (neg a) b = neg (cross a b) := by
  simp only [cross, neg, V3.mk.injEq]
  refine ⟨by ring, by ring, by ring⟩

/-- The dot product of an opposite vector. -/
theorem dot_neg_left (a b : V3 K) : dot (neg a) b = -dot a b := by
  simp only [dot, neg]
  ring

/-- The opposite of the opposite. -/
theorem neg_twice (a : V3 K) : neg (neg a) = a := by
  simp only [neg, neg_neg]

/-- Mirroring the three bonds leaves `x` unchanged. -/
theorem kernel_x_mirror (m : Libm K) (u b1 b2 b3 : V3 K) (hu : dot u u = 1) :
    kernel_x m (mirror u b1) (mirror u b2) (mirror u b3) = kernel_x m b1 b2 b3 := by
  simp only [kernel_x, cross_mirror _ _ _ hu, divs_neg, divs_mirror, dot_neg_left,
    dot_neg_right, dot_mirror _ _ _ hu, neg_neg]

/-- Mirroring the three bonds negates `y`. -/
theorem kernel_y_mirror (m : Libm K) (u b1 b2 b3 : V3 K) (hu : dot u u = 1) :
    kernel_y m (mirror u b1) (mirror u b2) (mirror u b3) = -kernel_y m b1 b2 b3 := by
  simp only [kernel_y, cross_mirror _ _ _ hu, divs_neg, divs_mirror, cross_neg_left,
    neg_twice, dot_neg_left, dot_neg_right, dot_mirror _ _ _ hu, neg_neg]

end Algebra

end V3

section Mirror

variable {K : Type} [LinearOrderedField K]

/-- The pair `(x, y)` for four positions with number coordinates when the two plane
normals and the middle bond have nonzero computed lengths. -/
theorem taf_xy_fin (m : Libm K) (th : enum_thread_t K) (data : enum_prune_taf_t K)
    (p : Fin 4 → V3 K)
    (hp : ∀ k : Fin 4,
      (th.state.getD (taf_state_index th data k) enum_thread_node.undef).pos = (p k).toVec)
    (h1 : m.sqrt (V3.dot (V3.cross (V3.sub (p 0) (p 1)) (V3.sub (p 1) (p 2)))
      (V3.cross (V3.sub (p 0) (p 1)) (V3.sub (p 1) (p 2)))) ≠ 0)
    (h2 : m.sqrt (V3.dot (V3.cross (V3.sub (p 1) (p 2)) (V3.sub (p 2) (p 3)))
      (V3.cross (V3.sub (p 1) (p 2)) (V3.sub (p 2) (p 3)))) ≠ 0)
    (hb : m.sqrt (V3.dot (V3.sub (p 1) (p 2)) (V3.sub (p 1) (p 2))) ≠ 0) :
    taf_xy m th data =
      (Dbl.fin (V3.kernel_x m (V3.sub (p 0) (p 1)) (V3.sub (p 1) (p 2)) (V3.sub (p 2) (p 3))),
       Dbl.fin (V3.kernel_y m (V3.sub (p 0) (p 1)) (V3.sub (p 1) (p 2)) (V3.sub (p 2) (p 3)))) := by
  rw [taf_xy_pos m th data p hp]
  simp only [vector_cross_toVec]
  rw [vector_normalize_toVec m _ h1, vector_normalize_toVec m _ h2,
    vector_normalize_toVec m _ hb]
  simp only [vector_cross_toVec, vector_dot_toVec]
  rfl

/-- Reflecting the four positions through a plane of unit normal leaves `x` unchanged and
negates `y`, over any ordered field and for any square root function. -/
theorem taf_xy_mirror (m : Libm K) (u : V3 K) (c : K) (hu : V3.dot u u = 1)
    (th th1 : enum_thread_t K) (data : enum_prune_taf_t K) (p : Fin 4 → V3 K)
    (hp : ∀ k : Fin 4,
      (th.state.getD (taf_state_index th data k) enum_thread_node.undef).pos = (p k).toVec)
    (hp1 : ∀ k : Fin 4,
      (th1.state.getD (taf_state_index th1 data k) enum_thread_node.undef).pos =
        (V3.reflect u c (p k)).toVec)
    (h1 : m.sqrt (V3.dot (V3.cross (V3.sub (p 0) (p 1)) (V3.sub (p 1) (p 2)))
      (V3.cross (V3.sub (p 0) (p 1)) (V3.sub (p 1) (p 2)))) ≠ 0)
    (h2 : m.sqrt (V3.dot (V3.cross (V3.sub (p 1) (p 2)) (V3.sub (p 2) (p 3)))
      (V3.cross (V3.sub (p 1) (p 2)) (V3.sub (p 2) (p 3)))) ≠ 0)
    (hb : m.sqrt (V3.dot (V3.sub (p 1) (p 2)) (V3.sub (p 1) (p 2))) ≠ 0) :
    taf_xy m th data =
      (Dbl.fin (V3.kernel_x m (V3.sub (p 0) (p 1)) (V3.sub (p 1) (p 2)) (V3.sub (p 2) (p 3))),
       Dbl.fin (V3.kernel_y m (V3.sub (p 0) (p 1)) (V3.sub (p 1) (p 2)) (V3.sub (p 2) (p 3)))) ∧
    taf_xy m th1 data =
      (Dbl.fin (V3.kernel_x m (V3.sub (p 0) (p 1)) (V3.sub (p 1) (p 2)) (V3.sub (p 2) (p 3))),
       Dbl.fin (-V3.kernel_y m (V3.sub (p 0) (p 1)) (V3.sub (p 1) (p 2))
         (V3.sub (p 2) (p 3)))) := by
  refine ⟨taf_xy_fin m th data p hp h1 h2 hb, ?_⟩
  have e := taf_xy_fin m th1 data (fun k => V3.reflect u c (p k)) hp1
    (by simpa only [V3.sub_reflect, V3.cross_mirror _ _ _ hu, V3.dot_neg_neg,
      V3.dot_mirror _ _ _ hu] using h1)
    (by simpa only [V3.sub_reflect, V3.cross_mirror _ _ _ hu, V3.dot_neg_neg,
      V3.dot_mirror _ _ _ hu] using h2)
    (by simpa only [V3.sub_reflect, V3.dot_mirror _ _ _ hu] using hb)
  rw [e]
  simp only [V3.sub_reflect, V3.kernel_x_mirror m u _ _ _ hu, V3.kernel_y_mirror m u _ _ _ hu]

/-- A nonzero vector of numbers has a positive sum of squares. -/
theorem V3.dot_self_pos (a : V3 K) (h : a ≠ V3.mk 0 0 0) : 0 < V3.dot a a := by
  rcases lt_or_eq_of_le (V3.dot_self_nonneg a) with hlt | heq
  · exact hlt
  · exfalso
    apply h
    obtain ⟨x, y, z⟩ := a
    simp only [V3.dot] at heq
    have hx : x = 0 := by nlinarith [mul_self_nonneg x, mul_self_nonneg y, mul_self_nonneg z]
    have hy : y = 0 := by nlinarith [mul_self_nonneg x, mul_self_nonneg y, mul_self_nonneg z]
    have hz : z = 0 := by nlinarith [mul_self_nonneg x, mul_self_nonneg y, mul_self_nonneg z]
    rw [hx, hy, hz]

end Mirror

/-- The state indices read through `payload3K` at level 3 are 0, 1, 2, 3. -/
theorem payload3K_index (K : Type) [LinearOrderedField K] (st : List (enum_thread_node K))
    (j : Fin 4) :
    taf_state_index { level := 3, state := st } (payload3K K) j =
      (![0, 1, 2, 3] : Fin 4 → Nat) j := by
  have h3 : (3 : Nat) < u32 := by norm_num [u32]
  simp only [taf_state_index, payload3K]
  fin_cases j
  · exact usub_eq_sub 3 3 h3 (le_refl 3)
  · exact usub_eq_sub 3 2 h3 (by norm_num)
  · exact usub_eq_sub 3 1 h3 (by norm_num)
  · exact usub_eq_sub 3 0 h3 (by norm_num)

/-- The positions of `state4K`, read through `payload3K` at level 3. -/
theorem state4K_pos (K : Type) [LinearOrderedField K] (k : Fin 4) :
    (({ level := 3, state := state4K K } : enum_thread_t K).state.getD
        (taf_state_index { level := 3, state := state4K K } (payload3K K) k)
        enum_thread_node.undef).pos =
      ((![V3.mk 0 1 0, V3.mk 0 0 0, V3.mk 1 0 0, V3.mk 1 0 1] : Fin 4 → V3 K) k).toVec := by
  rw [payload3K_index]
  fin_cases k <;> simp [state4K, V3.toVec]

/-- The positions of `state4KMirror` are the reflections of those of `state4K` through
the plane `z = 0`. -/
theorem state4KMirror_pos (K : Type) [LinearOrderedField K] (k : Fin 4) :
    (({ level := 3, state := state4KMirror K } : enum_thread_t K).state.getD
        (taf_state_index { level := 3, state := state4KMirror K } (payload3K K) k)
        enum_thread_node.undef).pos =
      (V3.reflect (V3.mk 0 0 1) 0
        ((![V3.mk 0 1 0, V3.mk 0 0 0, V3.mk 1 0 0, V3.mk 1 0 1] : Fin 4 → V3 K) k)).toVec := by
  rw [payload3K_index]
  fin_cases k <;> norm_num [state4KMirror, V3.reflect, V3.dot, V3.toVec]

/-- C15. Over the real numbers, with the real square root and `atan2(y, x)` the argument
of `x + iy`, for four positions whose two plane normals are not the zero vector:
reflecting the four positions through a plane (unit normal `u`, offset `c`) leaves
`x = n1 . n2` unchanged and negates `y = m . n2`, so the dihedral goes from `atan2(y, x)`
to `atan2(-y, x)`, which is its opposite unless it is `pi` (then it stays `pi`); the
points of the plane are fixed, so this applies to the two mirror candidates for the
fourth atom over three atoms of the plane. -/
theorem taf_omega_mirror (m : Libm ℝ) (hs : ∀ s, m.sqrt s = Real.sqrt s)
    (ha : ∀ y x, m.atan2 y x = Complex.arg (Complex.mk x y))
    (u : V3 ℝ) (c : ℝ) (hu : V3.dot u u = 1)
    (th th1 : enum_thread_t ℝ) (data : enum_prune_taf_t ℝ) (p : Fin 4 → V3 ℝ)
    (hp : ∀ k : Fin 4,
      (th.state.getD (taf_state_index th data k) enum_thread_node.undef).pos = (p k).toVec)
    (hp1 : ∀ k : Fin 4,
      (th1.state.getD (taf_state_index th1 data k) enum_thread_node.undef).pos =
        (V3.reflect u c (p k)).toVec)
    (h1 : V3.cross (V3.sub (p 0) (p 1)) (V3.sub (p 1) (p 2)) ≠ V3.mk 0 0 0)
    (h2 : V3.cross (V3.sub (p 1) (p 2)) (V3.sub (p 2) (p 3)) ≠ V3.mk 0 0 0) :
    ∃ x y : ℝ,
      taf_xy m th data = (Dbl.fin x, Dbl.fin y) ∧
      taf_xy m th1 data = (Dbl.fin x, Dbl.fin (-y)) ∧
      taf_omega m th data = Dbl.fin (m.atan2 y x) ∧
      taf_omega m th1 data = Dbl.fin (m.atan2 (-y) x) ∧
      (m.atan2 y x ≠ Real.pi → m.atan2 (-y) x = -m.atan2 y x) ∧
      (m.atan2 y x = Real.pi → m.atan2 (-y) x = Real.pi) ∧
      ∀ k : Fin 4, V3.dot u (p k) = c → V3.reflect u c (p k) = p k := by
  have hb : V3.sub (p 1) (p 2) ≠ V3.mk 0 0 0 := by
    intro h
    apply h1
    rw [h]
    simp [V3.cross]
  have l1 := Real.sqrt_ne_zero'.mpr (V3.dot_self_pos _ h1)
  have l2 := Real.sqrt_ne_zero'.mpr (V3.dot_self_pos _ h2)
  have lb := Real.sqrt_ne_zero'.mpr (V3.dot_self_pos _ hb)
  rw [← hs] at l1 l2 lb
  obtain ⟨e1, e2⟩ := taf_xy_mirror m u c hu th th1 data p hp hp1 l1 l2 lb
  refine ⟨_, _, e1, e2, by rw [taf_omega_eq_atan2, e1]; rfl,
    by rw [taf_omega_eq_atan2, e2]; rfl, ?_, ?_,
    fun k hk => V3.reflect_of_mem u c (p k) hk⟩
  · intro hne
    have hc : ∀ a b : ℝ, Complex.mk a (-b) = (starRingEnd ℂ) (Complex.mk a b) := fun a b => by
      apply Complex.ext <;> simp
    rw [ha] at hne
    rw [ha, ha, hc, Complex.arg_conj, if_neg hne]
  · intro heq
    have hc : ∀ a b : ℝ, Complex.mk a (-b) = (starRingEnd ℂ) (Complex.mk a b) := fun a b => by
      apply Complex.ext <;> simp
    rw [ha] at heq
    rw [ha, hc, Complex.arg_conj, if_pos heq]

/-- C15 at the positions of `state4K` and their reflection through the plane `z = 0` of
the first three atoms. -/
theorem taf_omega_mirror_witness :
    ∃ m : Libm ℝ, (∀ s, m.sqrt s = Real.sqrt s) ∧
      (∀ y x, m.atan2 y x = Complex.arg (Complex.mk x y)) ∧
      V3.dot (V3.mk (0 : ℝ) 0 1) (V3.mk 0 0 1) = 1 ∧
      ∃ x y : ℝ,
        taf_xy m { level := 3, state := state4K ℝ } (payload3K ℝ) = (Dbl.fin x, Dbl.fin y) ∧
        taf_xy m { level := 3, state := state4KMirror ℝ } (payload3K ℝ) =
          (Dbl.fin x, Dbl.fin (-y)) ∧
        taf_omega m { level := 3, state := state4K ℝ } (payload3K ℝ) =
          Dbl.fin (m.atan2 y x) ∧
        taf_omega m { level := 3, state := state4KMirror ℝ } (payload3K ℝ) =
          Dbl.fin (m.atan2 (-y) x) ∧
        (m.atan2 y x ≠ Real.pi → m.atan2 (-y) x = -m.atan2 y x) :=
  ⟨⟨Real.sqrt, fun y x => Complex.arg (Complex.mk x y), Real.pi⟩, fun _ => rfl,
    fun _ _ => rfl, by simp [V3.dot],
    let ⟨x, y, a1, a2, a3, a4, a5, _⟩ :=
      taf_omega_mirror ⟨Real.sqrt, fun y x => Complex.arg (Complex.mk x y), Real.pi⟩
        (fun _ => rfl) (fun _ _ => rfl) (V3.mk 0 0 1) 0 (by simp [V3.dot])
        { level := 3, state := state4K ℝ } { level := 3, state := state4KMirror ℝ }
        (payload3K ℝ) ![V3.mk 0 1 0, V3.mk 0 0 0, V3.mk 1 0 0, V3.mk 1 0 1]
        (state4K_pos ℝ) (state4KMirror_pos ℝ)
        (by simp [V3.cross, V3.sub]) (by simp [V3.cross, V3.sub])
    ⟨x, y, a1, a2, a3, a4, a5⟩⟩

/-! ## C8: the table index beyond `unsigned int` range -/

/-- The table field of a graph given by its three fields. -/
theorem graph_t_E_mk {K : Type} (a : Nat) (b : List Nat) (c : List (value_t K)) :
    ({ nv := a, order := b, E := c } : graph_t K).E = c := rfl

/-- The table of `graphWide` is `wideTable`. -/
theorem graphWide_E : graphWide.E = wideTable :=
  (congrArg graph_t.E
    (show graphWide = { nv := 65537, order := [], E := wideTable } from rfl)).trans
    (graph_t_E_mk 65537 [] wideTable)

/-- The entries of the table of `graphWide`. -/
theorem graphWide_getD (idx : Nat) (h : idx < 65537 * 65537) :
    graphWide.E.getD idx value_t.undef = wideEntry idx := by
  rw [graphWide_E, wideTable,
    List.getD_eq_getElem _ _ (by rw [List.length_map, List.length_range]; exact h),
    List.getElem_map, List.getElem_range]

/-- The line of the specification for an exact edge. -/
theorem edge_line_scalar {K : Type} (ghe : graph_t K → Nat → Nat → value_type_t)
    (code3 : Nat → String) (P : peptide_t K) (G : graph_t K) (i j : Nat)
    (h : ghe G i j = value_type_t.VALUE_TYPE_SCALAR) :
    edge_line ghe code3 P G (i, j) =
      some (dmdgp_line.edge_exact (i + 1) (j + 1)
        (G.E.getD (i + G.nv * j) value_t.undef).l
        (atom_comment code3 P i) (atom_comment code3 P j)) := by
  simp only [edge_line, h]

/-- C8 at its failing input. On the graph of 65537 vertices the pair (1, 65536) is an
exact edge whose table entry `E[1 + nv * 65536]` holds the length 9, so the line of the
claim is `2 65537 D 9`.  The code computes the index in `unsigned int`:
`1 + 65537 * 65536` wraps to 65537, the entry of the pair (0, 1), and the line written is
`2 65537 D 7`; the line of the claim is not written at all. -/
theorem dmdgp_write_edges_wide :
    graph_has_edge graphWide 1 65536 = value_type_t.VALUE_TYPE_SCALAR ∧
    graphWide.E.getD (1 + graphWide.nv * 65536) value_t.undef =
      { type := value_type_t.VALUE_TYPE_SCALAR, l := Dbl.fin 9, u := Dbl.fin 9 } ∧
    uadd 1 (umul graphWide.nv 65536) = 65537 ∧
    graphWide.E.getD 65537 value_t.undef =
      { type := value_type_t.VALUE_TYPE_SCALAR, l := Dbl.fin 7, u := Dbl.fin 7 } ∧
    edge_line graph_has_edge code3Gly peptideWide graphWide (1, 65536) =
      some (dmdgp_line.edge_exact 2 65537 (Dbl.fin 9)
        (atom_comment code3Gly peptideWide 1) (atom_comment code3Gly peptideWide 65536)) ∧
    dmdgp_edge_body graph_has_edge code3Gly peptideWide graphWide 1 65536 =
      [dmdgp_line.edge_exact 2 65537 (Dbl.fin 7)
        (atom_comment code3Gly peptideWide 1) (atom_comment code3Gly peptideWide 65536)] ∧
    dmdgp_line.edge_exact 2 65537 (Dbl.fin 7)
        (atom_comment code3Gly peptideWide 1) (atom_comment code3Gly peptideWide 65536) ∈
      dmdgp_write_edges graph_count_edges graph_has_edge code3Gly peptideWide graphWide ∧
    dmdgp_line.edge_exact 2 65537 (Dbl.fin 9)
        (atom_comment code3Gly peptideWide 1) (atom_comment code3Gly peptideWide 65536) ∉
      dmdgp_write_edges graph_count_edges graph_has_edge code3Gly peptideWide graphWide := by
  have hnv : graphWide.nv = 65537 := rfl
  have h9 : graphWide.E.getD 4295032833 value_t.undef =
      { type := value_type_t.VALUE_TYPE_SCALAR, l := Dbl.fin 9, u := Dbl.fin 9 } := by
    rw [graphWide_getD _ (by norm_num)]
    simp [wideEntry]
  have h7 : graphWide.E.getD 65537 value_t.undef =
      { type := value_type_t.VALUE_TYPE_SCALAR, l := Dbl.fin 7, u := Dbl.fin 7 } := by
    rw [graphWide_getD _ (by norm_num)]
    simp [wideEntry]
  have hidx : 1 + graphWide.nv * 65536 = 4295032833 := by rw [hnv]
  have hwrap : uadd 1 (umul graphWide.nv 65536) = 65537 := by
    rw [hnv]
    norm_num [uadd, umul, u32]
  have hkind : graph_has_edge graphWide 1 65536 = value_type_t.VALUE_TYPE_SCALAR := by
    rw [graph_has_edge, hidx, h9]
  have hu1 : uadd 1 1 = 2 := by norm_num [uadd, u32]
  have hu2 : uadd 65536 1 = 65537 := by norm_num [uadd, u32]
  have hbody : dmdgp_edge_body graph_has_edge code3Gly peptideWide graphWide 1 65536 =
      [dmdgp_line.edge_exact 2 65537 (Dbl.fin 7)
        (atom_comment code3Gly peptideWide 1) (atom_comment code3Gly peptideWide 65536)] := by
    simp only [dmdgp_edge_body, hkind, if_true, hu1, hu2, hwrap, h7]
  refine ⟨hkind, by rw [hidx, h9], hwrap, h7, ?_, hbody, ?_, ?_⟩
  · have hl := edge_line_scalar graph_has_edge code3Gly peptideWide graphWide 1 65536 hkind
    rw [hidx, h9] at hl
    exact hl
  · rw [dmdgp_write_edges]
    refine List.mem_append_left _ (List.mem_append_right _ ?_)
    refine List.mem_flatMap.mpr ⟨1, List.mem_range.mpr (by rw [hnv]; norm_num), ?_⟩
    refine List.mem_flatMap.mpr ⟨65536, List.mem_range'_1.mpr ?_, ?_⟩
    · rw [hu1, hnv]
      norm_num
    · rw [hbody]
      exact List.mem_singleton.mpr rfl
  · intro hmem
    rw [dmdgp_write_edges] at hmem
    simp only [List.mem_append, List.mem_cons, List.mem_singleton, List.mem_flatMap,
      List.mem_range, List.mem_range'_1, List.not_mem_nil, or_false, reduceCtorEq,
      false_or] at hmem
    obtain ⟨i, hi, j, hj, hb⟩ := hmem
    rw [hnv] at hi hj
    have ei : uadd i 1 = i + 1 := by
      simp only [uadd, u32]; omega
    rw [ei] at hj
    have ej : uadd j 1 = j + 1 := by
      simp only [uadd, u32]; omega
    simp only [dmdgp_edge_body, ei, ej] at hb
    split at hb
    · simp only [List.mem_singleton, dmdgp_line.edge_exact.injEq] at hb
      obtain ⟨hi2, hj2, hval, _, _⟩ := hb
      have hi1 : i = 1 := by omega
      have hj1 : j = 65536 := by omega
      rw [hi1, hj1, hwrap, h7] at hval
      simp at hval
    · split at hb
      · simp only [List.mem_singleton, reduceCtorEq] at hb
      · simp only [List.not_mem_nil] at hb

end IbpNg
